import Mathlib

/-!
Shallow embedding of go-ipld-cbor (github.com/ipfs/go-ipld-cbor).

Bytes are modelled as `List Nat` (a Go `[]byte`; a value `≥ 256` can never be
produced by the encoders here, and the decoders reject such values wherever a
numeric value is assembled from bytes).  Go strings are byte strings, so map
keys, path segments and text strings are also `List Nat`.

The refmt CBOR engine (an external collaborator of the repository) is embedded
as an executable encoder/decoder pair over the dynamic value domain that
`cbor.UnmarshalAtlased` produces for the atlas of `node.go`/`refmt.go`:
null, booleans, integers, byte strings, text strings, arrays, string-keyed
maps, and tag-42 links.  Map keys are sorted with the canonical
RFC 7049 order (`atlas.KeySortMode_RFC7049` in `refmt.go`): shorter byte
strings first, ties broken bytewise lexicographically.  Go maps are unordered,
so the decoder here represents a decoded map by its canonical sorted form and
resolves duplicate wire keys by overwriting, as Go map assignment does.
Indefinite-length items and floating-point values are outside the embedded
domain (the model decoder rejects them, restricting the set of inputs the
theorems quantify over, never changing the behaviour on accepted inputs).
-/

/-! ### Unsigned varints (encoding/binary Uvarint, used by go-cid and go-multihash) -/

def uvarintAux : Nat → Nat → List Nat
  | 0, _ => []
  | fuel + 1, n => if n < 128 then [n] else (n % 128 + 128) :: uvarintAux fuel (n / 128)


/-- LEB128 encoding of a natural number, as `binary.PutUvarint` produces. -/
def uvarint (n : Nat) : List Nat := uvarintAux (n + 1) n


/-- LEB128 decoding, as `binary.Uvarint`: returns the value and the rest of the
input.  (The 64-bit overflow cut-off of the Go function is not modelled; none
of the claims exercises varints of ten or more bytes.) -/
def readUvarint : List Nat → Option (Nat × List Nat)
  | [] => none
  | b :: rest =>
    if b < 128 then some (b, rest)
    else
      match readUvarint rest with
      | some (v, rest2) => some (v * 128 + (b - 128), rest2)
      | none => none


/-! ### Big-endian multi-byte integers (the CBOR 2/4/8-byte argument forms) -/

def beBytes : Nat → Nat → List Nat
  | 0, _ => []
  | k + 1, n => n / 256 ^ k % 256 :: beBytes k n


/-- Reads `k` big-endian bytes, accumulating into `acc`; rejects a list entry
that is not a byte value. -/
def readBE : Nat → Nat → List Nat → Option (Nat × List Nat)
  | 0, acc, bs => some (acc, bs)
  | _ + 1, _, [] => none
  | k + 1, acc, b :: bs => if b < 256 then readBE k (acc * 256 + b) bs else none


/-! ### CBOR item headers (major type + argument) -/

/-- Canonical (minimal-length) CBOR header for major type `maj` with argument
`n`, as the refmt encoder emits. -/
def encHeader (maj n : Nat) : List Nat :=
  if n < 24 then [maj * 32 + n]
  else if n < 256 then [maj * 32 + 24, n]
  else if n < 65536 then (maj * 32 + 25) :: beBytes 2 n
  else if n < 4294967296 then (maj * 32 + 26) :: beBytes 4 n
  else (maj * 32 + 27) :: beBytes 8 n


/-- Reads a CBOR header: major type, argument value, rest.  Accepts all four
fixed-length argument forms whether or not they are minimal (the refmt decoder
does too; canonicalization happens on re-encode).  Indefinite-length and
reserved additional-info values are rejected. -/
def readHeader : List Nat → Option (Nat × Nat × List Nat)
  | [] => none
  | b :: bs =>
    if b < 256 then
      let maj := b / 32
      let info := b % 32
      if info < 24 then some (maj, info, bs)
      else if info = 24 then
        match bs with
        | x :: r => if x < 256 then some (maj, x, r) else none
        | [] => none
      else if info = 25 then (readBE 2 0 bs).map (fun p => (maj, p.1, p.2))
      else if info = 26 then (readBE 4 0 bs).map (fun p => (maj, p.1, p.2))
      else if info = 27 then (readBE 8 0 bs).map (fun p => (maj, p.1, p.2))
      else none
    else none


/-! ### Content identifiers (go-cid, an external collaborator)

go-cid represents a `Cid` as the raw byte string it was parsed from
(`Cid{str string}`); `Cast` validates the bytes and keeps them verbatim, and
`Bytes()` returns them unchanged.  The model mirrors that: a `Cid` is its byte
string, validated by `validCidBytes`. -/

structure Cid where
  bytes : List Nat
deriving DecidableEq


/-- Model of `cid.Undef`, the zero `Cid` (empty byte string). -/
def Cid.undef : Cid := ⟨[]⟩


/-- go-multihash `Cast`/`Decode`: a varint hash-function code, a varint digest
length, and exactly that many digest bytes.  (The hash-code whitelist of
go-multihash is not modelled; all claims use registered codes.) -/
def validMultihash (b : List Nat) : Bool :=
  match readUvarint b with
  | none => false
  | some (_, r) =>
    match readUvarint r with
    | none => false
    | some (len, digest) => digest.length == len


/-- go-cid `Cast` validation: either the 34-byte sha2-256 CIDv0 form, or a
varint version (which must be 1), a varint codec, and a valid multihash with
no trailing bytes. -/
def validCidBytes (b : List Nat) : Bool :=
  if b.length == 34 && b.head? == some 18 && b[1]? == some 32 then
    validMultihash b
  else
    match readUvarint b with
    | none => false
    | some (vers, r) =>
      if vers == 1 then
        match readUvarint r with
        | none => false
        | some (_, r2) => validMultihash r2
      else false


/-- go-cid `Cast`: validate and keep the bytes verbatim. -/
def castCid (b : List Nat) : Option Cid :=
  if validCidBytes b then some ⟨b⟩ else none


/-- Model of `castBytesToCid` of node.go: strips and checks the binary-multibase zero
byte, then delegates to go-cid `Cast`. -/
def castBytesToCid (x : List Nat) : Except String Cid :=
  match x with
  | [] => .error "link value was empty"
  | b :: rest =>
    if b ≠ 0 then .error "invalid multibase on IPLD link"
    else
      match castCid rest with
      | some c => .ok c
      | none => .error "invalid IPLD link"


/-- Model of `castCidToBytes` of node.go: `append([]byte{0}, link.Bytes()...)`. -/
def castCidToBytes (c : Cid) : List Nat := 0 :: c.bytes


/-! ### The dynamic value domain of the atlas decoder -/

/-- The values `cbor.UnmarshalAtlased` produces into an `interface{}` under the
atlas of node.go: null, bool, integers, byte strings, text strings, arrays,
string-keyed maps, and tag-42 links (`cid.Cid`).  A Go map is unordered; a
`map` here always stands for the canonical representative whose entries are in
RFC 7049 key order (the decoder produces that form directly). -/
inductive Obj where
  | null
  | bool (b : Bool)
  | int (n : Int)
  | bytes (bs : List Nat)
  | str (s : List Nat)
  | arr (xs : List Obj)
  | map (kvs : List (List Nat × Obj))
  | link (c : Cid)


/-! ### RFC 7049 canonical key order (`atlas.KeySortMode_RFC7049`) -/

/-- Bytewise lexicographic comparison. -/
def lexCmp : List Nat → List Nat → Ordering
  | [], [] => .eq
  | [], _ :: _ => .lt
  | _ :: _, [] => .gt
  | a :: as, b :: bs =>
    if a < b then .lt else if b < a then .gt else lexCmp as bs


/-- RFC 7049 canonical order on map keys: shorter byte strings first, ties
broken bytewise. -/
def rfcCmp (a b : List Nat) : Ordering :=
  if a.length < b.length then .lt
  else if b.length < a.length then .gt
  else lexCmp a b


/-! ### Go-map insertion and the refmt marshal key sort -/

/-- Inserting a decoded wire entry into the canonical (sorted) representation
of a Go map: keeps RFC 7049 order, and a duplicate wire key overwrites the
earlier value, as Go map assignment does. -/
def mapInsert (k : List Nat) (v : Obj) : List (List Nat × Obj) → List (List Nat × Obj)
  | [] => [(k, v)]
  | (k2, v2) :: rest =>
    match rfcCmp k k2 with
    | .lt => (k, v) :: (k2, v2) :: rest
    | .eq => (k2, v) :: rest
    | .gt => (k2, v2) :: mapInsert k v rest


/-- Holds when `k` is strictly below every key of the list. -/
def keyLtAll (k : List Nat) : List (List Nat × Obj) → Bool
  | [] => true
  | (k2, _) :: rest => decide (rfcCmp k k2 = .lt) && keyLtAll k rest


/-- Entries are in strictly ascending RFC 7049 key order. -/
def pairsSorted : List (List Nat × Obj) → Bool
  | [] => true
  | (k, _) :: rest => keyLtAll k rest && pairsSorted rest


/-- Insertion sort step of the refmt marshaller's key sort. -/
def insPair (p : List Nat × Obj) : List (List Nat × Obj) → List (List Nat × Obj)
  | [] => [p]
  | q :: rest =>
    match rfcCmp p.1 q.1 with
    | .gt => q :: insPair p rest
    | _ => p :: q :: rest


/-- The refmt marshaller sorts map entries by RFC 7049 key order
(`atlas.KeySortMode_RFC7049`) before emitting them. -/
def sortPairs : List (List Nat × Obj) → List (List Nat × Obj)
  | [] => []
  | p :: rest => insPair p (sortPairs rest)


/-! ### The canonical CBOR encoder (refmt marshal with the node.go atlas) -/

mutual
/-- Serializes one value.  Map entries are emitted in list order: the sorting
the refmt marshaller performs on Go maps is `canonObj` below, and
`DumpObject` composes the two. -/
def encObj : Obj → List Nat
  | .null => [246]
  | .bool false => [244]
  | .bool true => [245]
  | .int n => if 0 ≤ n then encHeader 0 n.toNat else encHeader 1 (-1 - n).toNat
  | .bytes bs => encHeader 2 bs.length ++ bs
  | .str s => encHeader 3 s.length ++ s
  | .arr xs => encHeader 4 xs.length ++ encList xs
  | .map kvs => encHeader 5 kvs.length ++ encPairs kvs
  | .link c => encHeader 6 42 ++ encHeader 2 (castCidToBytes c).length ++ castCidToBytes c
def encList : List Obj → List Nat
  | [] => []
  | x :: xs => encObj x ++ encList xs
def encPairs : List (List Nat × Obj) → List Nat
  | [] => []
  | (k, v) :: kvs => encHeader 3 k.length ++ k ++ encObj v ++ encPairs kvs
end


mutual
/-- The canonical representative of a value: every map sorted into RFC 7049
key order (a Go map is unordered, so this loses nothing). -/
def canonObj : Obj → Obj
  | .arr xs => .arr (canonList xs)
  | .map kvs => .map (sortPairs (canonPairs kvs))
  | o => o
def canonList : List Obj → List Obj
  | [] => []
  | x :: xs => canonObj x :: canonList xs
def canonPairs : List (List Nat × Obj) → List (List Nat × Obj)
  | [] => []
  | (k, v) :: kvs => (k, canonObj v) :: canonPairs kvs
end


/-- Model of `DumpObject` of node.go: `cbor.MarshalAtlased` with the node.go atlas,
which sorts map keys canonically and emits minimal headers. -/
def DumpObject (o : Obj) : List Nat := encObj (canonObj o)


mutual
/-- Well-formedness of a decoded value: integers fit the 64-bit wire forms,
lengths fit the 8-byte argument form, maps are canonically sorted (hence
duplicate-free), and link identifiers pass go-cid validation.  Every value the
decoder produces is well-formed (`decVal_wf`), and every well-formed value
round-trips through the codec (`decVal_encObj`). -/
def wfObj : Obj → Bool
  | .null => true
  | .bool _ => true
  | .int n => decide (-(2 ^ 64 : Int) ≤ n) && decide (n < (2 ^ 64 : Int))
  | .bytes bs => decide (bs.length < 2 ^ 64)
  | .str s => decide (s.length < 2 ^ 64)
  | .arr xs => decide (xs.length < 2 ^ 64) && wfList xs
  | .map kvs => decide (kvs.length < 2 ^ 64) && pairsSorted kvs && wfPairs kvs
  | .link c => validCidBytes c.bytes && decide (c.bytes.length + 1 < 2 ^ 64)
def wfList : List Obj → Bool
  | [] => true
  | x :: xs => wfObj x && wfList xs
def wfPairs : List (List Nat × Obj) → Bool
  | [] => true
  | (k, v) :: kvs => decide (k.length < 2 ^ 64) && wfObj v && wfPairs kvs
end


/-! ### The CBOR decoder (refmt unmarshal with the node.go atlas) -/

/-- Decodes `n` consecutive array elements with the element decoder `g`. -/
def decListAux (g : List Nat → Option (Obj × List Nat)) :
    Nat → List Nat → Option (List Obj × List Nat)
  | 0, bs => some ([], bs)
  | n + 1, bs =>
    match g bs with
    | some (v, r) =>
      match decListAux g n r with
      | some (xs, r2) => some (v :: xs, r2)
      | none => none
    | none => none


/-- Decodes `n` consecutive map entries into the accumulated Go map `acc`.
A non-text key is rejected: the node.go pipeline fails on any map whose key
is not a string (`toSaneMap`/`traverse` report "map key was not a string"
before a `Node` is ever produced). -/
def decPairsAux (g : List Nat → Option (Obj × List Nat)) :
    Nat → List (List Nat × Obj) → List Nat → Option (List (List Nat × Obj) × List Nat)
  | 0, acc, bs => some (acc, bs)
  | n + 1, acc, bs =>
    match g bs with
    | some (.str k, r) =>
      match g r with
      | some (v, r2) => decPairsAux g n (mapInsert k v acc) r2
      | none => none
    | _ => none


/-- Decodes one CBOR item.  `fuel` bounds the nesting depth; each level of
nesting consumes at least one header byte, so `length + 1` fuel always
suffices (`decodeCBOR`). -/
def decVal : Nat → List Nat → Option (Obj × List Nat)
  | 0, _ => none
  | fuel + 1, bs =>
    match readHeader bs with
    | none => none
    | some (maj, n, rest) =>
      if maj = 0 then some (.int (n : Int), rest)
      else if maj = 1 then some (.int (-1 - (n : Int)), rest)
      else if maj = 2 then
        if n ≤ rest.length then some (.bytes (rest.take n), rest.drop n) else none
      else if maj = 3 then
        if n ≤ rest.length then some (.str (rest.take n), rest.drop n) else none
      else if maj = 4 then
        match decListAux (decVal fuel) n rest with
        | some (xs, r) => some (.arr xs, r)
        | none => none
      else if maj = 5 then
        match decPairsAux (decVal fuel) n [] rest with
        | some (kvs, r) => some (.map kvs, r)
        | none => none
      else if maj = 6 then
        if n = 42 then
          match decVal fuel rest with
          | some (.bytes payload, r) =>
            match castBytesToCid payload with
            | .ok c => some (.link c, r)
            | .error _ => none
          | _ => none
        else none
      else if maj = 7 then
        if n = 20 then some (.bool false, rest)
        else if n = 21 then some (.bool true, rest)
        else if n = 22 then some (.null, rest)
        else none
      else none


/-- Model of `decodeCBOR` of node.go: `cbor.UnmarshalAtlased` with the node.go atlas
(composed with the string-key requirement the Node pipeline enforces). -/
def decodeCBOR (b : List Nat) : Option Obj :=
  (decVal (b.length + 1) b).map Prod.fst


/-! ### The Node pipeline of node.go -/

def natDecAux : Nat → Nat → List Nat
  | 0, _ => []
  | fuel + 1, n => if n < 10 then [48 + n] else natDecAux fuel (n / 10) ++ [48 + n % 10]


/-- Decimal digits of `n` (the `fmt.Sprintf("%d", i)` of `traverse`). -/
def natDec (n : Nat) : List Nat := natDecAux (n + 1) n


mutual
/-- The paths `traverse` emits strictly below a node, in the model's canonical
sibling order (Go map iteration order is unspecified; the spec makes sibling
order a non-guarantee).  `pre` is the prefix each child path starts with: `""`
at the root, `parentPath ++ "/"` below, matching `name[1:]` of `compTree`. -/
def treeObj (pre : List Nat) : Obj → List (List Nat)
  | .map kvs => treePairs pre kvs
  | .arr xs => treeArr pre 0 xs
  | _ => []
def treePairs (pre : List Nat) : List (List Nat × Obj) → List (List Nat)
  | [] => []
  | (k, v) :: kvs => (pre ++ k) :: (treeObj (pre ++ k ++ [47]) v ++ treePairs pre kvs)
def treeArr (pre : List Nat) : Nat → List Obj → List (List Nat)
  | _, [] => []
  | i, x :: xs => (pre ++ natDec i) :: (treeObj (pre ++ natDec i ++ [47]) x ++ treeArr pre (i + 1) xs)
end


/-- Model of `compTree` of node.go. -/
def compTree (o : Obj) : List (List Nat) := treeObj [] o


mutual
/-- The links `traverse` finds, in traversal order (`compLinks` of node.go). -/
def linksObj : Obj → List Cid
  | .map kvs => linksPairs kvs
  | .arr xs => linksList xs
  | .link c => [c]
  | _ => []
def linksList : List Obj → List Cid
  | [] => []
  | x :: xs => linksObj x ++ linksList xs
def linksPairs : List (List Nat × Obj) → List Cid
  | [] => []
  | (_, v) :: kvs => linksObj v ++ linksPairs kvs
end


def compLinks (o : Obj) : List Cid := linksObj o


/-- A `blocks.Block`: raw bytes plus the identifier it is keyed by. -/
structure Block where
  data : List Nat
  cid : Cid


/-- The `Node` of node.go: the decoded object, its path index, its link list,
its raw bytes, and its identifier. -/
structure Node where
  obj : Obj
  tree : List (List Nat)
  links : List Cid
  raw : List Nat
  cid : Cid


/-- Model of `decodeBlock` of node.go: decode the block's bytes, compute the path index
and link list, and keep the block's bytes and identifier verbatim.
(`compTree`/`compLinks` fail only on non-string map keys, which the model
decoder already rejects.) -/
def decodeBlock (block : Block) : Option Node :=
  match decodeCBOR block.data with
  | none => none
  | some m =>
    some { obj := m, tree := compTree m, links := compLinks m,
           raw := block.data, cid := block.cid }


/-- Model of `DecodeBlock` of node.go (the exported wrapper of `decodeBlock`). -/
def DecodeBlock (block : Block) : Option Node := decodeBlock block


/-- Model of `mh.SHA2_256`. -/
def sha2_256Code : Nat := 18


/-- Model of `cid.DagCBOR`. -/
def dagCborCodec : Nat := 113


/-- Model of `DefaultMultihash` of store.go: `mh.BLAKE2B_MIN + 31`. -/
def defaultMultihashCode : Nat := 45600


/-- go-multihash `Sum`, parameterized by the digest function of the selected
hash (an external collaborator): varint code, varint digest length, digest.
A non-negative `mhLen` truncates the digest. -/
def mhSum (digestFn : Nat → List Nat → List Nat) (data : List Nat)
    (mhType : Nat) (mhLen : Int) : List Nat :=
  let d := digestFn mhType data
  let d2 := if mhLen < 0 then d else d.take mhLen.toNat
  uvarint mhType ++ uvarint d2.length ++ d2


/-- go-cid `NewCidV1`. -/
def NewCidV1 (codec : Nat) (mhash : List Nat) : Cid :=
  ⟨uvarint 1 ++ uvarint codec ++ mhash⟩


/-- Model of `WrapObject` of node.go: marshal canonically, hash (with
`math.MaxUint64` selecting sha2-256), build a CIDv1 DagCBOR identifier, and
re-decode the canonical bytes through `decodeBlock`. -/
def WrapObject (digestFn : Nat → List Nat → List Nat) (m : Obj)
    (mhType : Nat) (mhLen : Int) : Option Node :=
  let data := DumpObject m
  let mhType2 := if mhType = 2 ^ 64 - 1 then sha2_256Code else mhType
  let hash := mhSum digestFn data mhType2 mhLen
  let c := NewCidV1 dagCborCodec hash
  decodeBlock { data := data, cid := c }


/-- Model of `Decode` of node.go: decode, then canonicalize through `WrapObject`. -/
def Decode (digestFn : Nat → List Nat → List Nat) (b : List Nat)
    (mhType : Nat) (mhLen : Int) : Option Node :=
  match decodeCBOR b with
  | none => none
  | some m => WrapObject digestFn m mhType mhLen


/-- First varint of an identifier's bytes (its version, for a v1 identifier). -/
def cidVersionOf (c : Cid) : Option Nat := (readUvarint c.bytes).map Prod.fst


/-- Second varint of an identifier's bytes (its codec, for a v1 identifier). -/
def cidCodecOf (c : Cid) : Option Nat :=
  (readUvarint c.bytes).bind fun p => (readUvarint p.2).map Prod.fst


/-- Third varint of an identifier's bytes (its hash-function code, for a v1
identifier). -/
def cidMhCodeOf (c : Cid) : Option Nat :=
  (readUvarint c.bytes).bind fun p => (readUvarint p.2).bind fun q =>
    (readUvarint q.2).map Prod.fst


/-! ### `Node.Tree` (node.go) -/

/-- Model of `strings.TrimLeft(s, "/")`. -/
def trimLeftSlash (s : List Nat) : List Nat := s.dropWhile (fun b => b == 47)


/-- Model of `strings.Split(s, "/")` for the one-byte separator `/`. -/
def splitSlash : List Nat → List (List Nat)
  | [] => [[]]
  | b :: rest =>
    if b = 47 then [] :: splitSlash rest
    else
      match splitSlash rest with
      | seg :: segs => (b :: seg) :: segs
      | [] => [[b]]


/-- Model of `Node.Tree` of node.go: the special case for `("", -1)` returns the index
verbatim; otherwise entries are matched by raw string prefix, the prefix is
dropped, leading slashes are trimmed, empty suffixes are skipped, and a
non-negative depth keeps only suffixes of at most `depth` slash-separated
segments. -/
def Node.Tree (n : Node) (path : List Nat) (depth : Int) : List (List Nat) :=
  if path = [] ∧ depth = -1 then n.tree
  else
    n.tree.filterMap fun t =>
      if path.isPrefixOf t then
        let sub := trimLeftSlash (t.drop path.length)
        if sub = [] then none
        else if depth < 0 then some sub
        else if ((splitSlash sub).length : Int) ≤ depth then some sub
        else none
      else none


/-- Modelled from the spec: "returns every recorded path under `prefixPath`,
with the prefix stripped" — a recorded path lies under `p` when `p` is empty
(every path is under the root) or when it extends `p` across a `/` boundary;
the depth rules are those of the spec sentence. -/
def treeUnderSpec (tree : List (List Nat)) (path : List Nat) (depth : Int) : List (List Nat) :=
  tree.filterMap fun t =>
    let sub? : Option (List Nat) :=
      if path = [] then some t
      else if (path ++ [47]).isPrefixOf t then some (t.drop (path.length + 1))
      else none
    match sub? with
    | none => none
    | some sub =>
      if depth < 0 then some sub
      else if depth = 0 then none
      else if ((splitSlash sub).length : Int) ≤ depth then some sub
      else none


/-- The filter/strip behaviour `Node.Tree` actually implements, written as a
standalone specification: raw string-prefix match, drop, trim, drop empties,
then the depth rule. -/
def treeRawSpec (tree : List (List Nat)) (path : List Nat) (depth : Int) : List (List Nat) :=
  tree.filterMap fun t =>
    if path.isPrefixOf t then
      let sub := trimLeftSlash (t.drop path.length)
      if sub = [] then none
      else if depth < 0 then some sub
      else if ((splitSlash sub).length : Int) ≤ depth then some sub
      else none
    else none


/-! ### `Node.Resolve` (node.go) -/

/-- Model of `strconv.Atoi`, restricted to what `Resolve` needs: an optional sign
followed by one or more decimal digits.  (The 64-bit overflow cut-off of the
Go function is not modelled.) -/
def parseDigits : List Nat → Option Nat
  | [] => none
  | [d] => if 48 ≤ d ∧ d ≤ 57 then some (d - 48) else none
  | d :: rest =>
    if 48 ≤ d ∧ d ≤ 57 then
      match parseDigits rest with
      | some v => some ((d - 48) * 10 ^ rest.length + v)
      | none => none
    else none


def atoi (s : List Nat) : Option Int :=
  match s with
  | 43 :: rest => (parseDigits rest).map fun v => (v : Int)
  | 45 :: rest => (parseDigits rest).map fun v => -(v : Int)
  | _ => (parseDigits s).map fun v => (v : Int)


/-- The value `Resolve` returns: either a link (a Reference plus its target
identifier) or a JSON-ish terminal value. -/
inductive Resolved where
  | link (c : Cid)
  | value (v : Obj)


mutual
/-- Model of `convertToJSONIsh` of node.go. -/
def convertToJSONIsh : Obj → Except String Obj
  | .map kvs => toSaneMap kvs
  | .arr xs =>
    if xs.isEmpty then .ok (.arr xs)
    else
      match convertListJSONIsh xs with
      | .ok out => .ok (.arr out)
      | .error e => .error e
  | o => .ok o
termination_by o => 2 * sizeOf o
decreasing_by all_goals (simp_wf; try omega)
/-- Model of `toSaneMap` of node.go: a single-entry map keyed `"/"` whose value is a
byte string becomes `{"/": identifier}` (failing when the bytes are not a
valid identifier or the value is not bytes); any other map has its values
converted recursively. -/
def toSaneMap (kvs : List (List Nat × Obj)) : Except String Obj :=
  if (kvs.lookup [47]).isSome ∧ kvs.length = 1 then
    match kvs.lookup [47] with
    | some (.bytes lnkb) =>
      match castCid lnkb with
      | some c => .ok (.map [([47], .link c)])
      | none => .error "invalid cid bytes"
    | _ => .error "link value should have been bytes"
  else
    match convertPairsJSONIsh kvs with
    | .ok out => .ok (.map out)
    | .error e => .error e
termination_by 2 * sizeOf kvs + 1
decreasing_by all_goals (simp_wf; try omega)
def convertListJSONIsh : List Obj → Except String (List Obj)
  | [] => .ok []
  | x :: xs =>
    match convertToJSONIsh x with
    | .ok y =>
      match convertListJSONIsh xs with
      | .ok ys => .ok (y :: ys)
      | .error e => .error e
    | .error e => .error e
termination_by xs => 2 * sizeOf xs
decreasing_by all_goals (simp_wf; try omega)
def convertPairsJSONIsh : List (List Nat × Obj) → Except String (List (List Nat × Obj))
  | [] => .ok []
  | (k, v) :: kvs =>
    match convertToJSONIsh v with
    | .ok w =>
      match convertPairsJSONIsh kvs with
      | .ok ws => .ok ((k, w) :: ws)
      | .error e => .error e
    | .error e => .error e
termination_by kvs => 2 * sizeOf kvs
decreasing_by all_goals (simp_wf; try omega)
end


/-- Model of `Node.Resolve` of node.go, one path segment at a time: key lookup at a
map, parsed non-negative index at an array, immediate stop with the remaining
segments at a link, error otherwise; an exhausted path returns the link or
the JSON-ish form of the final value. -/
def resolveObj : Obj → List (List Nat) → Except String (Resolved × List (List Nat))
  | cur, [] =>
    match cur with
    | .link c => .ok (.link c, [])
    | _ =>
      match convertToJSONIsh cur with
      | .ok j => .ok (.value j, [])
      | .error e => .error e
  | cur, seg :: rest =>
    match cur with
    | .map kvs =>
      match kvs.lookup seg with
      | some next => resolveObj next rest
      | none => .error "no such link found"
    | .arr xs =>
      match atoi seg with
      | none => .error "invalid syntax"
      | some i =>
        if h : 0 ≤ i ∧ i.toNat < xs.length then resolveObj (xs.get ⟨i.toNat, h.2⟩) rest
        else .error "array index out of range"
    | .link c => .ok (.link c, seg :: rest)
    | _ => .error "tried to resolve through object that had no links"


def Node.Resolve (n : Node) (path : List (List Nat)) :
    Except String (Resolved × List (List Nat)) :=
  resolveObj n.obj path


/-- The pure segment walk `Resolve` follows: map lookup or in-bounds array
index, stopping at anything else (links are terminal, never walked through). -/
def descend : Obj → List (List Nat) → Option Obj
  | o, [] => some o
  | .map kvs, seg :: rest =>
    match kvs.lookup seg with
    | some next => descend next rest
    | none => none
  | .arr xs, seg :: rest =>
    match atoi seg with
    | none => none
    | some i =>
      if h : 0 ≤ i ∧ i.toNat < xs.length then descend (xs.get ⟨i.toNat, h.2⟩) rest else none
  | _, _ :: _ => none


/-- Is an optional value a link? -/
def isLinkO : Option Obj → Bool
  | some (.link _) => true
  | _ => false


/-! ### The JSON bridge (`FromJSON`, `convertToCborIshObj` of node.go) -/

/-- JSON values as `encoding/json` decodes them into an `interface{}`
(numbers are modelled as integers; none of the claims exercises fractions). -/
inductive Json where
  | null
  | bool (b : Bool)
  | num (n : Int)
  | str (s : List Nat)
  | arr (xs : List Json)
  | obj (kvs : List (List Nat × Json))


/-- The mixed values `convertToCborIshObj` returns: JSON subtrees passed
through verbatim, identifiers produced from link markers, and arrays whose
elements were converted. -/
inductive CborIsh where
  | raw (j : Json)
  | link (c : Cid)
  | arr (xs : List CborIsh)


mutual
/-- Model of `convertToCborIshObj` of node.go, with go-cid's string parser
`cid.Decode` (an external collaborator) supplied as `dec`.  A non-empty map
with exactly one entry keyed `"/"` and a string value becomes a Reference;
maps of any other shape are returned as they are (their values are not
converted); empty maps and arrays are returned as they are; non-empty arrays
convert their elements. -/
def convertToCborIshObj (dec : List Nat → Option Cid) : Json → Except String CborIsh
  | .obj kvs =>
    if kvs.length = 0 then .ok (.raw (.obj kvs))
    else
      if (kvs.lookup [47]).isSome ∧ kvs.length = 1 then
        match kvs.lookup [47] with
        | some (.str vstr) =>
          match dec vstr with
          | some c => .ok (.link c)
          | none => .error "failed to parse link identifier"
        | some _ => .error "link should have been a string"
        | none => .error "unreachable"
      else .ok (.raw (.obj kvs))
  | .arr xs =>
    if xs.length = 0 then .ok (.raw (.arr xs))
    else
      match convertCborIshList dec xs with
      | .ok out => .ok (.arr out)
      | .error e => .error e
  | j => .ok (.raw j)
def convertCborIshList (dec : List Nat → Option Cid) : List Json → Except String (List CborIsh)
  | [] => .ok []
  | x :: xs =>
    match convertToCborIshObj dec x with
    | .ok y =>
      match convertCborIshList dec xs with
      | .ok ys => .ok (y :: ys)
      | .error e => .error e
    | .error e => .error e
end


mutual
/-- How the refmt marshaller sees a raw JSON subtree (the `interface{}`
values `encoding/json` produced): scalars, arrays and string-keyed maps. -/
def jsonToObj : Json → Obj
  | .null => .null
  | .bool b => .bool b
  | .num n => .int n
  | .str s => .str s
  | .arr xs => .arr (jsonListToObj xs)
  | .obj kvs => .map (jsonPairsToObj kvs)
def jsonListToObj : List Json → List Obj
  | [] => []
  | x :: xs => jsonToObj x :: jsonListToObj xs
def jsonPairsToObj : List (List Nat × Json) → List (List Nat × Obj)
  | [] => []
  | (k, v) :: kvs => (k, jsonToObj v) :: jsonPairsToObj kvs
end


mutual
/-- How the refmt marshaller sees the mixed output of
`convertToCborIshObj`. -/
def cborIshToObj : CborIsh → Obj
  | .raw j => jsonToObj j
  | .link c => .link c
  | .arr xs => .arr (cborIshListToObj xs)
def cborIshListToObj : List CborIsh → List Obj
  | [] => []
  | x :: xs => cborIshToObj x :: cborIshListToObj xs
end


/-- Model of `FromJSON` of node.go: parse (already done by `encoding/json`, whose
output is the `Json` argument), convert the link markers, and wrap. -/
def FromJSON (dec : List Nat → Option Cid) (digestFn : Nat → List Nat → List Nat)
    (j : Json) (mhType : Nat) (mhLen : Int) : Option Node :=
  match convertToCborIshObj dec j with
  | .error _ => none
  | .ok ci => WrapObject digestFn (cborIshToObj ci) mhType mhLen


/-! ### The content-addressed store (store.go) -/

/-- The backing `IpldBlockstore`, modelled as the mock store of store.go: a
map from identifiers to block bytes (newest binding first). -/
structure MockBlocks where
  data : List (Cid × List Nat)


def MockBlocks.get (s : MockBlocks) (c : Cid) : Option (List Nat) :=
  (s.data.lookup c)


def MockBlocks.put (s : MockBlocks) (c : Cid) (b : List Nat) : MockBlocks :=
  ⟨(c, b) :: s.data⟩


/-- A value handed to `Put`/`PutMany`: whether it implements `cidProvider`
(`claimed`), whether it implements `cbg.CBORMarshaler` and what its
`MarshalCBOR` produces (`marshal`), and the plain object the refmt path
(`WrapObject`) serializes otherwise. -/
structure PutVal where
  claimed : Option Cid
  marshal : Option (Except String (List Nat))
  obj : Obj


/-- Model of `cid.Prefix` fields of an identifier (go-cid `Prefix()`); identifiers
whose bytes do not parse yield zeroes, mirroring go-cid's error-ignoring
accessors. -/
structure CidPref where
  version : Nat
  codec : Nat
  mhType : Nat
  mhLength : Int


def prefOf (c : Cid) : CidPref :=
  if c.bytes.length = 34 ∧ c.bytes.head? = some 18 ∧ c.bytes[1]? = some 32 then
    { version := 0, codec := 112, mhType := 18, mhLength := 32 }
  else
    match readUvarint c.bytes with
    | none => { version := 0, codec := 0, mhType := 0, mhLength := 0 }
    | some (vers, r) =>
      match readUvarint r with
      | none => { version := vers, codec := 0, mhType := 0, mhLength := 0 }
      | some (codec, r2) =>
        match readUvarint r2 with
        | none => { version := vers, codec := codec, mhType := 0, mhLength := 0 }
        | some (code, r3) =>
          match readUvarint r3 with
          | none => { version := vers, codec := codec, mhType := code, mhLength := 0 }
          | some (_, digest) =>
            { version := vers, codec := codec, mhType := code, mhLength := (digest.length : Int) }


/-- Model of `cid.Prefix.Sum` as `Put`/`PutMany` use it: hash with the prefix's
parameters and build a version-1 identifier. -/
def prefSum (digestFn : Nat → List Nat → List Nat) (codec mhType : Nat) (mhLen : Int)
    (data : List Nat) : Cid :=
  NewCidV1 codec (mhSum digestFn data mhType mhLen)


/-- Model of `BasicIpldStore`: the backing blockstore and the per-store default hash
override. -/
structure BasicIpldStore where
  blocks : MockBlocks
  defaultMultihash : Nat


/-- Model of `BasicIpldStore.Put` of store.go.  NOTE the faithful modelling of the Go
shadowing slip at store.go line 107: inside `if c, ok := v.(cidProvider)`,
the statement `expCid := c.Cid()` declares a NEW variable shadowing the
`expCid` of line 105, so the outer `expCid` is still `cid.Undef` when the
mismatch check runs, and the check can never fire (compare `PutMany`, which
assigns with `=` instead). -/
def Put (digestFn : Nat → List Nat → List Nat) (s : BasicIpldStore) (v : PutVal) :
    Except String Cid × BasicIpldStore :=
  let mhType := if s.defaultMultihash ≠ 0 then s.defaultMultihash else defaultMultihashCode
  let mhLen : Int := -1
  let codec := dagCborCodec
  let expCid : Cid := Cid.undef
  let (mhType, mhLen, codec) :=
    match v.claimed with
    | some c =>
      -- the inner `expCid := c.Cid()` is shadowed and never escapes this block
      let p := prefOf c
      (p.mhType, p.mhLength, p.codec)
    | none => (mhType, mhLen, codec)
  match v.marshal with
  | some (.error e) => (.error e, s)
  | some (.ok bytes) =>
    let c := prefSum digestFn codec mhType mhLen bytes
    let s2 : BasicIpldStore := { s with blocks := s.blocks.put c bytes }
    if expCid ≠ Cid.undef ∧ c ≠ expCid then
      (.error "your object is not being serialized the way it expects to", s2)
    else (.ok c, s2)
  | none =>
    match WrapObject digestFn v.obj mhType mhLen with
    | none => (.error "failed to marshal", s)
    | some nd =>
      let s2 : BasicIpldStore := { s with blocks := s.blocks.put nd.cid nd.raw }
      if expCid ≠ Cid.undef ∧ nd.cid ≠ expCid then
        (.error "your object is not being serialized the way it expects to", s2)
      else (.ok nd.cid, s2)


/-- A `Cursor` record of store.go: the block's identifier, the loop index it
was processed at, and its decode error if any. -/
structure Cursor where
  cid : Cid
  index : Nat
  err : Option String
deriving DecidableEq


/-- The backing `IpldBatchOpBlockStore.GetMany`: the subset of requested
blocks that exist (in request order) and the identifiers that do not. -/
def backingGetMany (s : MockBlocks) (cs : List Cid) : List (Cid × List Nat) × List Cid :=
  (cs.filterMap fun c => (s.get c).map fun b => (c, b),
   cs.filter fun c => (s.get c).isNone)


/-- The decode-and-publish loop of `GetMany`'s background task: for `i, blk`
in the found-block list, decode into `outs[i]` and emit a cursor with the
block's identifier and `i`. -/
def getManyLoop (i : Nat) (blks : List (Cid × List Nat)) (outs : List (Option Obj)) :
    List Cursor × List (Option Obj) :=
  match blks with
  | [] => ([], outs)
  | (c, bytes) :: rest =>
    match decodeCBOR bytes with
    | some m =>
      let r := getManyLoop (i + 1) rest (outs.set i (some m))
      (⟨c, i, none⟩ :: r.1, r.2)
    | none =>
      let r := getManyLoop (i + 1) rest outs
      (⟨c, i, some "failed to unmarshal"⟩ :: r.1, r.2)


/-- Model of `BatchOpIpldStore.GetMany` of store.go: fails when the identifier and
output lists differ in length; otherwise one batched fetch, then the
decode-and-publish loop over the found blocks.  The channel is modelled as
the list of cursors the background task sends before closing. -/
def GetMany (s : MockBlocks) (cs : List Cid) (outs : List (Option Obj)) :
    Except String (List Cursor × List Cid × List (Option Obj)) :=
  if cs.length ≠ outs.length then
    .error "expected list of cids to be the same length as the destination decode list"
  else
    let (blks, missing) := backingGetMany s cs
    let (cursors, outs2) := getManyLoop 0 blks outs
    .ok (cursors, missing, outs2)


def dfW : Nat → List Nat → List Nat := fun _ _ => []


def ndW : Node :=
  { obj := .map [([97], .int 2), ([98], .int 1)],
    tree := [[97], [98]],
    links := [],
    raw := [162, 97, 97, 2, 97, 98, 1],
    cid := ⟨[1, 113, 18, 0]⟩ }


def blkW : Block := { data := [246], cid := ⟨[7, 7, 7]⟩ }


def ndW5 : Node := { obj := .null, tree := [], links := [], raw := [246], cid := ⟨[7, 7, 7]⟩ }


def ndW10 : Node :=
  { obj := .null, tree := [], links := [], raw := [246], cid := ⟨[1, 113, 18, 0]⟩ }


/-! C4: Tree -/

/-- The node of `{"ab": 1}`: its recorded path index is the single path
`"ab"`. -/
def ndAB : Node :=
  { obj := .map [([97, 98], .int 1)],
    tree := compTree (.map [([97, 98], .int 1)]),
    links := [], raw := [161, 98, 97, 98, 1], cid := ⟨[1, 113, 18, 0]⟩ }


/-- The node of `{"a": {"b": 1, "c": 2}}`. -/
def ndTreeEx : Node :=
  { obj := .map [([97], .map [([98], .int 1), ([99], .int 2)])],
    tree := compTree (.map [([97], .map [([98], .int 1), ([99], .int 2)])]),
    links := [], raw := [161, 97, 97, 162, 97, 98, 1, 97, 99, 2], cid := ⟨[1, 113, 18, 0]⟩ }


/-- The node of `{"": 1}` (wire bytes `a1 60 01`): its recorded path list is
`[""]`, reached through a map with an empty key. -/
def ndEmptyKey : Node :=
  { obj := .map [([], .int 1)],
    tree := compTree (.map [([], .int 1)]),
    links := [], raw := [161, 96, 1], cid := ⟨[1, 113, 18, 0]⟩ }


def cW : Cid := ⟨[1, 113, 18, 0]⟩


def ndW6 : Node :=
  { obj := .map [([97], .map [([98], .link cW)])],
    tree := [], links := [], raw := [], cid := ⟨[]⟩ }


def decW : List Nat → Option Cid := fun s => if s = [120] then some cW else none


/-! C2: Put's identifier-mismatch check is dead (shadowed variable) -/

def df0 : Nat → List Nat → List Nat := fun _ _ => [0]


/-- A well-formed claimed identifier: version 1, DagCBOR, sha2-256, digest
length 1, digest byte 99. -/
def cidClaim : Cid := ⟨[1, 113, 18, 1, 99]⟩


/-- A self-describing value whose own serialization `[0xf6]` hashes (under
`df0`, truncated to the claimed prefix's digest length 1) to the identifier
`[1, 113, 18, 1, 0]`, which differs from its claimed identifier. -/
def vBad : PutVal := { claimed := some cidClaim, marshal := some (.ok [246]), obj := .null }


def storeEmpty : BasicIpldStore := { blocks := ⟨[]⟩, defaultMultihash := 0 }


/-! C7: PutMany is all-or-nothing -/

/-- The decode error a cursor carries for a block's bytes. -/
def cursorErr (bytes : List Nat) : Option String :=
  match decodeCBOR bytes with
  | some _ => none
  | none => some "failed to unmarshal"


def cA : Cid := ⟨[1]⟩


def cB : Cid := ⟨[2]⟩


def stC3 : MockBlocks := ⟨[(cB, [246])]⟩

/-! ### Theorems -/


theorem readUvarint_uvarintAux (fuel : Nat) : ∀ n rest, n < fuel →
    readUvarint (uvarintAux fuel n ++ rest) = some (n, rest) := by
  induction fuel with
  | zero => intro n rest h; omega
  | succ fuel ih =>
    intro n rest h
    by_cases hn : n < 128
    · simp [uvarintAux, hn, readUvarint]
    · have hdiv : n / 128 < fuel := by omega
      simp only [uvarintAux, if_neg hn, List.cons_append, readUvarint]
      have : ¬ (n % 128 + 128 < 128) := by omega
      simp [if_neg this, ih (n / 128) rest hdiv]
      omega


theorem readUvarint_uvarint (n : Nat) (rest : List Nat) :
    readUvarint (uvarint n ++ rest) = some (n, rest) :=
  readUvarint_uvarintAux (n + 1) n rest (Nat.lt_succ_self n)


theorem digit_decomp (k n : Nat) :
    n % 256 ^ (k + 1) = n / 256 ^ k % 256 * 256 ^ k + n % 256 ^ k := by
  have h1 : n / 256 ^ k % 256 = n % 256 ^ (k + 1) / 256 ^ k := by
    rw [Nat.div_mod_eq_mod_mul_div, Nat.pow_succ]
  have h2 : n % 256 ^ k = n % 256 ^ (k + 1) % 256 ^ k :=
    (Nat.mod_mod_of_dvd n (by rw [Nat.pow_succ]; exact dvd_mul_right _ _)).symm
  rw [h1, h2]
  exact (Nat.div_add_mod' _ _).symm


theorem readBE_beBytes (k : Nat) : ∀ acc n rest, readBE k acc (beBytes k n ++ rest) =
    some (acc * 256 ^ k + n % 256 ^ k, rest) := by
  induction k with
  | zero => intro acc n rest; simp [beBytes, readBE, Nat.mod_one]
  | succ k ih =>
    intro acc n rest
    have hb : n / 256 ^ k % 256 < 256 := Nat.mod_lt _ (by norm_num)
    simp only [beBytes, List.cons_append, readBE, if_pos hb, List.append_eq]
    rw [ih]
    have hd := digit_decomp k n
    have heq : (acc * 256 + n / 256 ^ k % 256) * 256 ^ k + n % 256 ^ k =
        acc * 256 ^ (k + 1) + n % 256 ^ (k + 1) := by
      rw [hd, Nat.pow_succ]
      ring
    rw [heq]


theorem readBE_lt (k : Nat) : ∀ acc bs v rest, readBE k acc bs = some (v, rest) →
    v < (acc + 1) * 256 ^ k := by
  induction k with
  | zero =>
    intro acc bs v rest h
    simp [readBE] at h
    omega
  | succ k ih =>
    intro acc bs v rest h
    match bs with
    | [] => simp [readBE] at h
    | b :: bs2 =>
      simp only [readBE] at h
      split at h
      · rename_i hb
        have hlt := ih (acc * 256 + b) bs2 v rest h
        calc v < (acc * 256 + b + 1) * 256 ^ k := hlt
          _ ≤ (acc + 1) * 256 ^ (k + 1) := by
            rw [Nat.pow_succ]
            have h1 : acc * 256 + b + 1 ≤ (acc + 1) * 256 := by omega
            calc (acc * 256 + b + 1) * 256 ^ k ≤ (acc + 1) * 256 * 256 ^ k :=
                  Nat.mul_le_mul_right _ h1
              _ = (acc + 1) * (256 ^ k * 256) := by ring
      · exact absurd h (by simp)


theorem readHeader_encHeader (maj n : Nat) (rest : List Nat) (hmaj : maj < 8)
    (hn : n < 2 ^ 64) : readHeader (encHeader maj n ++ rest) = some (maj, n, rest) := by
  have hdiv : ∀ i, i < 32 → (maj * 32 + i) / 32 = maj ∧ (maj * 32 + i) % 32 = i := by
    intro i hi
    omega
  unfold encHeader
  by_cases h24 : n < 24
  · have h := hdiv n (by omega)
    simp [h24, readHeader, h.1, h.2, show maj * 32 + n < 256 by omega]
  · by_cases h256 : n < 256
    · have h := hdiv 24 (by omega)
      simp [h24, h256, readHeader, h.1, h.2, show maj * 32 + 24 < 256 by omega, hn]
    · by_cases h65536 : n < 65536
      · have h := hdiv 25 (by omega)
        simp only [if_neg h24, if_neg h256, if_pos h65536, List.cons_append, readHeader,
          if_pos (show maj * 32 + 25 < 256 by omega), h.1, h.2]
        rw [readBE_beBytes]
        have hmod : n % 256 ^ 2 = n := Nat.mod_eq_of_lt (by omega)
        simp [hmod, h65536]
      · by_cases h32 : n < 4294967296
        · have h := hdiv 26 (by omega)
          simp only [if_neg h24, if_neg h256, if_neg h65536, if_pos h32, List.cons_append,
            readHeader, if_pos (show maj * 32 + 26 < 256 by omega), h.1, h.2]
          rw [readBE_beBytes]
          have hmod : n % 256 ^ 4 = n := Nat.mod_eq_of_lt (by omega)
          simp [hmod, h32]
        · have h := hdiv 27 (by omega)
          simp only [if_neg h24, if_neg h256, if_neg h65536, if_neg h32, List.cons_append,
            readHeader, if_pos (show maj * 32 + 27 < 256 by omega), h.1, h.2]
          rw [readBE_beBytes]
          have hmod : n % 256 ^ 8 = n := Nat.mod_eq_of_lt (by omega)
          have hn2 : n < 18446744073709551616 := by omega
          simp [hmod, hn2]


theorem readHeader_lt (bs : List Nat) (maj n : Nat) (rest : List Nat)
    (h : readHeader bs = some (maj, n, rest)) : n < 2 ^ 64 := by
  match bs with
  | [] => simp [readHeader] at h
  | b :: bs2 =>
    simp only [readHeader] at h
    split at h
    · split at h
      · simp only [Option.some.injEq, Prod.mk.injEq] at h
        omega
      · split at h
        · match bs2 with
          | [] => simp at h
          | x :: r =>
            simp only at h
            split at h
            · simp only [Option.some.injEq, Prod.mk.injEq] at h
              omega
            · simp at h
        · split at h
          · match hbe : readBE 2 0 bs2 with
            | none => rw [hbe] at h; simp at h
            | some (v, r) =>
              rw [hbe] at h
              simp at h
              obtain ⟨h1, h2, h3⟩ := h
              have hv := readBE_lt 2 0 bs2 v r hbe
              have hp : (256 : Nat) ^ 2 ≤ 2 ^ 64 := by norm_num
              omega
          · split at h
            · match hbe : readBE 4 0 bs2 with
              | none => rw [hbe] at h; simp at h
              | some (v, r) =>
                rw [hbe] at h
                simp at h
                obtain ⟨h1, h2, h3⟩ := h
                have hv := readBE_lt 4 0 bs2 v r hbe
                have hp : (256 : Nat) ^ 4 ≤ 2 ^ 64 := by norm_num
                omega
            · split at h
              · match hbe : readBE 8 0 bs2 with
                | none => rw [hbe] at h; simp at h
                | some (v, r) =>
                  rw [hbe] at h
                  simp at h
                  obtain ⟨h1, h2, h3⟩ := h
                  have hv := readBE_lt 8 0 bs2 v r hbe
                  have hp : (256 : Nat) ^ 8 = 2 ^ 64 := by norm_num
                  omega
              · simp at h
    · simp at h


theorem castBytesToCid_castCidToBytes (c : Cid) (h : validCidBytes c.bytes = true) :
    castBytesToCid (castCidToBytes c) = .ok c := by
  simp [castBytesToCid, castCidToBytes, castCid, h]


/-- Structural induction with membership hypotheses for the nested lists. -/
@[induction_eliminator]
theorem Obj.indOn {P : Obj → Prop}
    (hnull : P .null)
    (hbool : ∀ b, P (.bool b))
    (hint : ∀ n, P (.int n))
    (hbytes : ∀ bs, P (.bytes bs))
    (hstr : ∀ s, P (.str s))
    (harr : ∀ xs, (∀ x ∈ xs, P x) → P (.arr xs))
    (hmap : ∀ kvs, (∀ p ∈ kvs, P p.2) → P (.map kvs))
    (hlink : ∀ c, P (.link c)) : ∀ o, P o
  | .null => hnull
  | .bool b => hbool b
  | .int n => hint n
  | .bytes bs => hbytes bs
  | .str s => hstr s
  | .arr xs => harr xs (fun x _ => Obj.indOn hnull hbool hint hbytes hstr harr hmap hlink x)
  | .map kvs => hmap kvs (fun p _ => Obj.indOn hnull hbool hint hbytes hstr harr hmap hlink p.2)
  | .link c => hlink c
decreasing_by
  · simp_wf
    rename_i hx
    have := List.sizeOf_lt_of_mem hx
    omega
  · simp_wf
    rename_i hp
    rcases p with ⟨k, v⟩
    have := List.sizeOf_lt_of_mem hp
    simp only [Prod.mk.sizeOf_spec] at this
    simp only [Prod.snd]
    omega


theorem lexCmp_eq_iff : ∀ a b, lexCmp a b = .eq ↔ a = b := by
  intro a
  induction a with
  | nil => intro b; cases b <;> simp [lexCmp]
  | cons x as ih =>
    intro b
    cases b with
    | nil => simp [lexCmp]
    | cons y bs =>
      simp only [lexCmp]
      by_cases h1 : x < y
      · simp [h1]
        omega
      · by_cases h2 : y < x
        · simp [h1, h2]
          omega
        · have : x = y := by omega
          subst this
          simp [h1, h2, ih bs]


theorem lexCmp_gt_iff : ∀ a b, lexCmp a b = .gt ↔ lexCmp b a = .lt := by
  intro a
  induction a with
  | nil => intro b; cases b <;> simp [lexCmp]
  | cons x as ih =>
    intro b
    cases b with
    | nil => simp [lexCmp]
    | cons y bs =>
      simp only [lexCmp]
      by_cases h1 : x < y
      · simp [h1, show ¬ y < x by omega]
      · by_cases h2 : y < x
        · simp [h1, h2]
        · simp [h1, h2, ih bs]


theorem lexCmp_lt_trans : ∀ a b c, lexCmp a b = .lt → lexCmp b c = .lt → lexCmp a c = .lt := by
  intro a
  induction a with
  | nil =>
    intro b c hab hbc
    cases b with
    | nil => exact hbc
    | cons y bs =>
      cases c with
      | nil => simp [lexCmp] at hbc
      | cons z cs => simp [lexCmp]
  | cons x as ih =>
    intro b c hab hbc
    cases b with
    | nil => simp [lexCmp] at hab
    | cons y bs =>
      cases c with
      | nil => simp [lexCmp] at hbc
      | cons z cs =>
        simp only [lexCmp] at hab hbc ⊢
        rcases Nat.lt_trichotomy x y with hxy | hxy | hxy
        · rcases Nat.lt_trichotomy y z with hyz | hyz | hyz
          · simp [show x < z by omega]
          · simp [show x < z by omega]
          · simp [show ¬ y < z by omega, show z < y by omega] at hbc
        · have hnxy : ¬ x < y := by omega
          have hnyx : ¬ y < x := by omega
          rw [if_neg hnxy, if_neg hnyx] at hab
          rcases Nat.lt_trichotomy y z with hyz | hyz | hyz
          · simp [show x < z by omega]
          · have hnyz : ¬ y < z := by omega
            have hnzy : ¬ z < y := by omega
            rw [if_neg hnyz, if_neg hnzy] at hbc
            rw [if_neg (show ¬ x < z by omega), if_neg (show ¬ z < x by omega)]
            exact ih bs cs hab hbc
          · simp [show ¬ y < z by omega, show z < y by omega] at hbc
        · simp [show ¬ x < y by omega, show y < x by omega] at hab


theorem rfcCmp_eq_iff (a b : List Nat) : rfcCmp a b = .eq ↔ a = b := by
  unfold rfcCmp
  by_cases h1 : a.length < b.length
  · simp [h1]
    intro h
    subst h
    omega
  · by_cases h2 : b.length < a.length
    · simp [h1, h2]
      intro h
      subst h
      omega
    · simp [h1, h2, lexCmp_eq_iff]


theorem rfcCmp_gt_iff (a b : List Nat) : rfcCmp a b = .gt ↔ rfcCmp b a = .lt := by
  unfold rfcCmp
  by_cases h1 : a.length < b.length
  · simp [h1, show ¬ b.length < a.length by omega]
  · by_cases h2 : b.length < a.length
    · simp [h1, h2]
    · simp [h1, h2, lexCmp_gt_iff]


theorem rfcCmp_lt_trans {a b c : List Nat} (hab : rfcCmp a b = .lt) (hbc : rfcCmp b c = .lt) :
    rfcCmp a c = .lt := by
  unfold rfcCmp at hab hbc ⊢
  by_cases h1 : a.length < b.length
  · by_cases h2 : b.length < c.length
    · simp [show a.length < c.length by omega]
    · by_cases h4 : c.length < b.length
      · simp [h2, h4] at hbc
      · simp [show a.length < c.length by omega]
  · by_cases h3 : b.length < a.length
    · simp [h1, h3] at hab
    · rw [if_neg h1, if_neg h3] at hab
      by_cases h2 : b.length < c.length
      · simp [show a.length < c.length by omega]
      · by_cases h4 : c.length < b.length
        · simp [h2, h4] at hbc
        · rw [if_neg h2, if_neg h4] at hbc
          rw [if_neg (show ¬ a.length < c.length by omega),
            if_neg (show ¬ c.length < a.length by omega)]
          exact lexCmp_lt_trans a b c hab hbc


theorem rfcCmp_self (a : List Nat) : rfcCmp a a = .eq := (rfcCmp_eq_iff a a).mpr rfl


theorem keyLtAll_mem {k : List Nat} : ∀ {l : List (List Nat × Obj)}, keyLtAll k l = true →
    ∀ p ∈ l, rfcCmp k p.1 = .lt := by
  intro l
  induction l with
  | nil => intro _ p hp; cases hp
  | cons q rest ih =>
    intro h p hp
    rcases q with ⟨k2, v2⟩
    simp only [keyLtAll, Bool.and_eq_true, decide_eq_true_eq] at h
    rcases List.mem_cons.mp hp with hp | hp
    · rw [hp]
      exact h.1
    · exact ih h.2 p hp


theorem keyLtAll_of_lt {k k2 : List Nat} {l : List (List Nat × Obj)}
    (hlt : rfcCmp k k2 = .lt) (h : keyLtAll k2 l = true) : keyLtAll k l = true := by
  induction l with
  | nil => rfl
  | cons q rest ih =>
    rcases q with ⟨k3, v3⟩
    simp only [keyLtAll, Bool.and_eq_true, decide_eq_true_eq] at h ⊢
    exact ⟨rfcCmp_lt_trans hlt h.1, ih h.2⟩


theorem keyLtAll_mapInsert {k0 k : List Nat} {v : Obj} {l : List (List Nat × Obj)}
    (hlt : rfcCmp k0 k = .lt) (h : keyLtAll k0 l = true) :
    keyLtAll k0 (mapInsert k v l) = true := by
  induction l with
  | nil => simp [mapInsert, keyLtAll, hlt]
  | cons q rest ih =>
    rcases q with ⟨k2, v2⟩
    simp only [keyLtAll, Bool.and_eq_true, decide_eq_true_eq] at h
    simp only [mapInsert]
    match hc : rfcCmp k k2 with
    | .lt => simp [keyLtAll, hlt, h.1, h.2]
    | .eq => simp [keyLtAll, h.1, h.2]
    | .gt => simp [keyLtAll, h.1, ih h.2]


theorem pairsSorted_mapInsert {k : List Nat} {v : Obj} {l : List (List Nat × Obj)}
    (h : pairsSorted l = true) : pairsSorted (mapInsert k v l) = true := by
  induction l with
  | nil => simp [mapInsert, pairsSorted, keyLtAll]
  | cons q rest ih =>
    rcases q with ⟨k2, v2⟩
    simp only [pairsSorted, Bool.and_eq_true] at h
    simp only [mapInsert]
    match hc : rfcCmp k k2 with
    | .lt =>
      simp only [pairsSorted, keyLtAll, Bool.and_eq_true, decide_eq_true_eq]
      exact ⟨⟨hc, keyLtAll_of_lt hc h.1⟩, h.1, h.2⟩
    | .eq =>
      simp only [pairsSorted, Bool.and_eq_true]
      exact ⟨h.1, h.2⟩
    | .gt =>
      simp only [pairsSorted, Bool.and_eq_true]
      have hk2k : rfcCmp k2 k = .lt := (rfcCmp_gt_iff k k2).mp hc
      exact ⟨keyLtAll_mapInsert hk2k h.1, ih h.2⟩


theorem mapInsert_append {k : List Nat} {v : Obj} {l : List (List Nat × Obj)}
    (h : ∀ p ∈ l, rfcCmp p.1 k = .lt) : mapInsert k v l = l ++ [(k, v)] := by
  induction l with
  | nil => rfl
  | cons q rest ih =>
    rcases q with ⟨k2, v2⟩
    have hlt : rfcCmp k2 k = .lt := h (k2, v2) (by simp)
    have hgt : rfcCmp k k2 = .gt := (rfcCmp_gt_iff k k2).mpr hlt
    simp only [mapInsert, hgt, List.cons_append]
    rw [ih (fun p hp => h p (by simp [hp]))]


theorem length_mapInsert (k : List Nat) (v : Obj) (l : List (List Nat × Obj)) :
    (mapInsert k v l).length ≤ l.length + 1 := by
  induction l with
  | nil => simp [mapInsert]
  | cons q rest ih =>
    rcases q with ⟨k2, v2⟩
    simp only [mapInsert]
    match rfcCmp k k2 with
    | .lt => simp
    | .eq => simp
    | .gt => simpa using ih


theorem sortPairs_of_sorted : ∀ l : List (List Nat × Obj), pairsSorted l = true →
    sortPairs l = l := by
  intro l
  induction l with
  | nil => intro _; rfl
  | cons p rest ih =>
    intro h
    rcases p with ⟨k, v⟩
    simp only [pairsSorted, Bool.and_eq_true] at h
    simp only [sortPairs, ih h.2]
    match rest, h.1 with
    | [], _ => rfl
    | (k2, v2) :: rest2, hlt =>
      simp only [keyLtAll, Bool.and_eq_true, decide_eq_true_eq] at hlt
      simp [insPair, hlt.1]


/-! ### The decoder produces well-formed values -/

theorem castBytesToCid_ok {payload : List Nat} {c : Cid}
    (h : castBytesToCid payload = .ok c) :
    validCidBytes c.bytes = true ∧ payload = 0 :: c.bytes := by
  match payload with
  | [] => simp [castBytesToCid] at h
  | b :: rest =>
    simp only [castBytesToCid] at h
    split at h
    · simp at h
    · rename_i hb
      match hc : castCid rest with
      | some c2 =>
        rw [hc] at h
        simp only [Except.ok.injEq] at h
        subst h
        simp only [castCid] at hc
        split at hc
        · rename_i hv
          simp only [Option.some.injEq] at hc
          subst hc
          simp only [not_not] at hb
          exact ⟨hv, by rw [hb]⟩
        · simp at hc
      | none => rw [hc] at h; simp at h


theorem wfPairs_mapInsert {k : List Nat} {v : Obj} {l : List (List Nat × Obj)}
    (hk : k.length < 2 ^ 64) (hv : wfObj v = true) (hl : wfPairs l = true) :
    wfPairs (mapInsert k v l) = true := by
  induction l with
  | nil =>
    simp [mapInsert, wfPairs, hv]
    omega
  | cons q rest ih =>
    rcases q with ⟨k2, v2⟩
    simp only [wfPairs, Bool.and_eq_true, decide_eq_true_eq] at hl
    obtain ⟨⟨hk2, hv2⟩, hrest⟩ := hl
    simp only [mapInsert]
    match rfcCmp k k2 with
    | .lt =>
      simp [wfPairs, hv, hv2, hrest, hk2]
      all_goals omega
    | .eq =>
      simp [wfPairs, hv, hrest, hk2]
      all_goals omega
    | .gt =>
      simp [wfPairs, hv2, ih hrest, hk2]
      all_goals omega


theorem decListAux_spec (g : List Nat → Option (Obj × List Nat))
    (hg : ∀ bs v r, g bs = some (v, r) → wfObj v = true) :
    ∀ n bs xs r, decListAux g n bs = some (xs, r) → xs.length = n ∧ wfList xs = true := by
  intro n
  induction n with
  | zero =>
    intro bs xs r h
    simp only [decListAux, Option.some.injEq, Prod.mk.injEq] at h
    obtain ⟨h1, h2⟩ := h
    subst h1
    simp [wfList]
  | succ n ih =>
    intro bs xs r h
    simp only [decListAux] at h
    match hg1 : g bs with
    | none => rw [hg1] at h; simp at h
    | some (v, r1) =>
      rw [hg1] at h
      simp only at h
      match hrec : decListAux g n r1 with
      | none => rw [hrec] at h; simp at h
      | some (xs2, r2) =>
        rw [hrec] at h
        simp only [Option.some.injEq, Prod.mk.injEq] at h
        obtain ⟨h1, h2⟩ := h
        subst h1
        have hv := hg bs v r1 hg1
        have hx := ih r1 xs2 r2 hrec
        simp [wfList, hv, hx.1, hx.2]


theorem decPairsAux_spec (g : List Nat → Option (Obj × List Nat))
    (hg : ∀ bs v r, g bs = some (v, r) → wfObj v = true) :
    ∀ n acc bs kvs r, decPairsAux g n acc bs = some (kvs, r) →
      pairsSorted acc = true → wfPairs acc = true →
      pairsSorted kvs = true ∧ wfPairs kvs = true ∧ kvs.length ≤ acc.length + n := by
  intro n
  induction n with
  | zero =>
    intro acc bs kvs r h hs hw
    simp only [decPairsAux, Option.some.injEq, Prod.mk.injEq] at h
    obtain ⟨h1, h2⟩ := h
    subst h1
    exact ⟨hs, hw, by omega⟩
  | succ n ih =>
    intro acc bs kvs r h hs hw
    simp only [decPairsAux] at h
    match hg1 : g bs with
    | none => rw [hg1] at h; simp at h
    | some (v0, r1) =>
      rw [hg1] at h
      cases v0 with
      | str k =>
        simp only at h
        match hg2 : g r1 with
        | none => rw [hg2] at h; simp at h
        | some (v, r2) =>
          rw [hg2] at h
          simp only at h
          have hv := hg r1 v r2 hg2
          have hk := hg bs (.str k) r1 hg1
          simp only [wfObj, decide_eq_true_eq] at hk
          have h2 := ih (mapInsert k v acc) r2 kvs r h
            (pairsSorted_mapInsert hs) (wfPairs_mapInsert hk hv hw)
          refine ⟨h2.1, h2.2.1, ?_⟩
          have := length_mapInsert k v acc
          omega
      | null => simp at h
      | bool b => simp at h
      | int n0 => simp at h
      | bytes bs0 => simp at h
      | arr xs0 => simp at h
      | map kvs0 => simp at h
      | link c0 => simp at h


theorem decVal_wf : ∀ fuel bs v r, decVal fuel bs = some (v, r) → wfObj v = true := by
  intro fuel
  induction fuel with
  | zero => intro bs v r h; simp [decVal] at h
  | succ fuel ih =>
    intro bs v r h
    simp only [decVal] at h
    match hrh : readHeader bs with
    | none => rw [hrh] at h; simp at h
    | some (maj, n, rest) =>
      rw [hrh] at h
      have hn := readHeader_lt bs maj n rest hrh
      simp only at h
      by_cases h0 : maj = 0
      · rw [if_pos h0] at h
        simp only [Option.some.injEq, Prod.mk.injEq] at h
        obtain ⟨hv, -⟩ := h
        subst hv
        simp only [wfObj, Bool.and_eq_true, decide_eq_true_eq]
        omega
      · rw [if_neg h0] at h
        by_cases h1 : maj = 1
        · rw [if_pos h1] at h
          simp only [Option.some.injEq, Prod.mk.injEq] at h
          obtain ⟨hv, -⟩ := h
          subst hv
          simp only [wfObj, Bool.and_eq_true, decide_eq_true_eq]
          omega
        · rw [if_neg h1] at h
          by_cases h2 : maj = 2
          · rw [if_pos h2] at h
            split at h
            · simp only [Option.some.injEq, Prod.mk.injEq] at h
              obtain ⟨hv, -⟩ := h
              subst hv
              simp only [wfObj, decide_eq_true_eq, List.length_take]
              omega
            · simp at h
          · rw [if_neg h2] at h
            by_cases h3 : maj = 3
            · rw [if_pos h3] at h
              split at h
              · simp only [Option.some.injEq, Prod.mk.injEq] at h
                obtain ⟨hv, -⟩ := h
                subst hv
                simp only [wfObj, decide_eq_true_eq, List.length_take]
                omega
              · simp at h
            · rw [if_neg h3] at h
              by_cases h4 : maj = 4
              · rw [if_pos h4] at h
                match hd : decListAux (decVal fuel) n rest with
                | none => rw [hd] at h; simp at h
                | some (xs, r1) =>
                  rw [hd] at h
                  simp only [Option.some.injEq, Prod.mk.injEq] at h
                  obtain ⟨hv, -⟩ := h
                  subst hv
                  have hs := decListAux_spec (decVal fuel) ih n rest xs r1 hd
                  simp only [wfObj, Bool.and_eq_true, decide_eq_true_eq]
                  exact ⟨by omega, hs.2⟩
              · rw [if_neg h4] at h
                by_cases h5 : maj = 5
                · rw [if_pos h5] at h
                  match hd : decPairsAux (decVal fuel) n [] rest with
                  | none => rw [hd] at h; simp at h
                  | some (kvs, r1) =>
                    rw [hd] at h
                    simp only [Option.some.injEq, Prod.mk.injEq] at h
                    obtain ⟨hv, -⟩ := h
                    subst hv
                    have hs := decPairsAux_spec (decVal fuel) ih n [] rest kvs r1 hd rfl rfl
                    have hlen : kvs.length ≤ n := by
                      have := hs.2.2
                      simpa using this
                    simp only [wfObj, Bool.and_eq_true, decide_eq_true_eq]
                    exact ⟨⟨by omega, hs.1⟩, hs.2.1⟩
                · rw [if_neg h5] at h
                  by_cases h6 : maj = 6
                  · rw [if_pos h6] at h
                    by_cases h42 : n = 42
                    · rw [if_pos h42] at h
                      match hd : decVal fuel rest with
                      | none => rw [hd] at h; simp at h
                      | some (v0, r1) =>
                        rw [hd] at h
                        cases v0 with
                        | bytes payload =>
                          simp only at h
                          match hc : castBytesToCid payload with
                          | .ok c =>
                            rw [hc] at h
                            simp only [Option.some.injEq, Prod.mk.injEq] at h
                            obtain ⟨hv, -⟩ := h
                            subst hv
                            have hpl := ih rest (.bytes payload) r1 hd
                            simp only [wfObj, decide_eq_true_eq] at hpl
                            obtain ⟨hvc, hpe⟩ := castBytesToCid_ok hc
                            simp only [wfObj, Bool.and_eq_true, decide_eq_true_eq]
                            refine ⟨hvc, ?_⟩
                            rw [hpe] at hpl
                            simpa using hpl
                          | .error e => rw [hc] at h; simp at h
                        | null => simp at h
                        | bool b => simp at h
                        | int n0 => simp at h
                        | str s0 => simp at h
                        | arr xs0 => simp at h
                        | map kvs0 => simp at h
                        | link c0 => simp at h
                    · rw [if_neg h42] at h
                      simp at h
                  · rw [if_neg h6] at h
                    by_cases h7 : maj = 7
                    · rw [if_pos h7] at h
                      by_cases h20 : n = 20
                      · rw [if_pos h20] at h
                        simp only [Option.some.injEq, Prod.mk.injEq] at h
                        obtain ⟨hv, -⟩ := h
                        subst hv
                        rfl
                      · rw [if_neg h20] at h
                        by_cases h21 : n = 21
                        · rw [if_pos h21] at h
                          simp only [Option.some.injEq, Prod.mk.injEq] at h
                          obtain ⟨hv, -⟩ := h
                          subst hv
                          rfl
                        · rw [if_neg h21] at h
                          by_cases h22 : n = 22
                          · rw [if_pos h22] at h
                            simp only [Option.some.injEq, Prod.mk.injEq] at h
                            obtain ⟨hv, -⟩ := h
                            subst hv
                            rfl
                          · rw [if_neg h22] at h
                            simp at h
                    · rw [if_neg h7] at h
                      simp at h


/-! ### Round-trip: well-formed values decode back from their encoding -/

theorem encHeader_length_pos (maj n : Nat) : 1 ≤ (encHeader maj n).length := by
  unfold encHeader
  split_ifs <;> simp


theorem decVal_str (f : Nat) (s rest : List Nat) (hlen : s.length < 2 ^ 64)
    (hf : (encObj (.str s)).length < f) :
    decVal f (encObj (.str s) ++ rest) = some (.str s, rest) := by
  obtain ⟨f2, rfl⟩ : ∃ f2, f = f2 + 1 := ⟨f - 1, by have := encHeader_length_pos 3 s.length; simp [encObj] at hf; omega⟩
  simp only [encObj, List.append_assoc] at hf ⊢
  rw [decVal, readHeader_encHeader 3 s.length _ (by norm_num) hlen]
  simp only [List.length_append]
  have h1 : s.length ≤ (s ++ rest).length := by simp
  simp [h1, List.take_left, List.drop_left]


theorem decVal_bytes (f : Nat) (bs rest : List Nat) (hlen : bs.length < 2 ^ 64)
    (hf : (encObj (.bytes bs)).length < f) :
    decVal f (encObj (.bytes bs) ++ rest) = some (.bytes bs, rest) := by
  obtain ⟨f2, rfl⟩ : ∃ f2, f = f2 + 1 := ⟨f - 1, by have := encHeader_length_pos 2 bs.length; simp [encObj] at hf; omega⟩
  simp only [encObj, List.append_assoc] at hf ⊢
  rw [decVal, readHeader_encHeader 2 bs.length _ (by norm_num) hlen]
  have h1 : bs.length ≤ (bs ++ rest).length := by simp
  simp [h1, List.take_left, List.drop_left]


theorem pairsSorted_append_head {l1 l2 : List (List Nat × Obj)} {k : List Nat} {v : Obj}
    (h : pairsSorted (l1 ++ (k, v) :: l2) = true) : ∀ p ∈ l1, rfcCmp p.1 k = .lt := by
  induction l1 with
  | nil => intro p hp; cases hp
  | cons q rest ih =>
    intro p hp
    rcases q with ⟨k2, v2⟩
    simp only [List.cons_append, pairsSorted, Bool.and_eq_true] at h
    rcases List.mem_cons.mp hp with hp | hp
    · rw [hp]
      exact keyLtAll_mem h.1 (k, v) (by simp)
    · exact ih h.2 p hp


theorem pairsSorted_append_tail {l1 l2 : List (List Nat × Obj)}
    (h : pairsSorted (l1 ++ l2) = true) : pairsSorted l2 = true := by
  induction l1 with
  | nil => exact h
  | cons q rest ih =>
    rcases q with ⟨k2, v2⟩
    simp only [List.cons_append, pairsSorted, Bool.and_eq_true] at h
    exact ih h.2


theorem decListAux_encList (f : Nat) : ∀ (xs : List Obj) (rest : List Nat),
    (∀ x ∈ xs, ∀ f2 rest2, (encObj x).length < f2 →
      decVal f2 (encObj x ++ rest2) = some (x, rest2)) →
    (encList xs).length < f →
    decListAux (decVal f) xs.length (encList xs ++ rest) = some (xs, rest) := by
  intro xs
  induction xs with
  | nil => intro rest _ _; simp [encList, decListAux]
  | cons x xs ih =>
    intro rest hih hf
    simp only [encList, List.length_append] at hf
    simp only [encList, List.length_cons, List.append_assoc, decListAux]
    rw [hih x (by simp) f (encList xs ++ rest) (by omega)]
    simp only
    rw [ih rest (fun y hy => hih y (by simp [hy])) (by omega)]


theorem decPairsAux_encPairs (f : Nat) : ∀ (kvs acc : List (List Nat × Obj)) (rest : List Nat),
    (∀ p ∈ kvs, p.1.length < 2 ^ 64) →
    (∀ p ∈ kvs, ∀ f2 rest2, (encObj p.2).length < f2 →
      decVal f2 (encObj p.2 ++ rest2) = some (p.2, rest2)) →
    pairsSorted (acc ++ kvs) = true →
    (encPairs kvs).length < f →
    decPairsAux (decVal f) kvs.length acc (encPairs kvs ++ rest) = some (acc ++ kvs, rest) := by
  intro kvs
  induction kvs with
  | nil => intro acc rest _ _ _ _; simp [encPairs, decPairsAux]
  | cons p kvs ih =>
    intro acc rest hkl hih hsort hf
    rcases p with ⟨k, v⟩
    have hkenc : encHeader 3 k.length ++ k = encObj (.str k) := by simp [encObj]
    simp only [encPairs, List.length_append] at hf
    simp only [encPairs, List.length_cons, List.append_assoc, decPairsAux]
    have hklen : k.length < 2 ^ 64 := hkl (k, v) (by simp)
    have hstr : decVal f (encObj (.str k) ++ (encObj v ++ (encPairs kvs ++ rest))) =
        some (.str k, encObj v ++ (encPairs kvs ++ rest)) := by
      apply decVal_str f k _ hklen
      simp only [encObj]
      simp only [List.length_append] at hf ⊢
      omega
    rw [← List.append_assoc (encHeader 3 k.length) k, hkenc, hstr]
    simp only
    rw [hih (k, v) (by simp) f (encPairs kvs ++ rest) (by show (encObj v).length < f; omega)]
    simp only
    have hlt := pairsSorted_append_head hsort
    have hins : mapInsert k v acc = acc ++ [(k, v)] := mapInsert_append hlt
    rw [hins]
    have hsort2 : pairsSorted ((acc ++ [(k, v)]) ++ kvs) = true := by
      rw [List.append_assoc]
      simpa using hsort
    have := ih (acc ++ [(k, v)]) rest (fun q hq => hkl q (by simp [hq]))
      (fun q hq => hih q (by simp [hq])) hsort2 (by omega)
    rw [this]
    simp


theorem wfList_mem : ∀ {xs : List Obj}, wfList xs = true → ∀ x ∈ xs, wfObj x = true := by
  intro xs
  induction xs with
  | nil => intro _ x hx; cases hx
  | cons y ys ih =>
    intro h x hx
    simp only [wfList, Bool.and_eq_true] at h
    rcases List.mem_cons.mp hx with hx | hx
    · rw [hx]; exact h.1
    · exact ih h.2 x hx


theorem wfPairs_mem : ∀ {kvs : List (List Nat × Obj)}, wfPairs kvs = true →
    ∀ p ∈ kvs, p.1.length < 2 ^ 64 ∧ wfObj p.2 = true := by
  intro kvs
  induction kvs with
  | nil => intro _ p hp; cases hp
  | cons q qs ih =>
    intro h p hp
    rcases q with ⟨k, v⟩
    simp only [wfPairs, Bool.and_eq_true, decide_eq_true_eq] at h
    rcases List.mem_cons.mp hp with hp | hp
    · rw [hp]; exact ⟨h.1.1, h.1.2⟩
    · exact ih h.2 p hp


theorem decVal_encObj : ∀ (v : Obj), wfObj v = true →
    ∀ (f : Nat) (rest : List Nat), (encObj v).length < f →
      decVal f (encObj v ++ rest) = some (v, rest) := by
  intro v
  induction v with
  | hnull =>
    intro _ f rest hf
    simp only [encObj] at hf ⊢
    obtain ⟨f2, rfl⟩ : ∃ f2, f = f2 + 1 := ⟨f - 1, by simp at hf; omega⟩
    rfl
  | hbool b =>
    intro _ f rest hf
    cases b <;>
      (simp only [encObj] at hf ⊢
       obtain ⟨f2, rfl⟩ : ∃ f2, f = f2 + 1 := ⟨f - 1, by simp at hf; omega⟩
       rfl)
  | hint n =>
    intro hwf f rest hf
    simp only [wfObj, Bool.and_eq_true, decide_eq_true_eq] at hwf
    simp only [encObj] at hf ⊢
    by_cases hpos : 0 ≤ n
    · rw [if_pos hpos] at hf ⊢
      obtain ⟨f2, rfl⟩ : ∃ f2, f = f2 + 1 :=
        ⟨f - 1, by have := encHeader_length_pos 0 n.toNat; omega⟩
      rw [decVal, readHeader_encHeader 0 n.toNat rest (by norm_num) (by omega)]
      simp [Int.toNat_of_nonneg hpos]
    · rw [if_neg hpos] at hf ⊢
      obtain ⟨f2, rfl⟩ : ∃ f2, f = f2 + 1 :=
        ⟨f - 1, by have := encHeader_length_pos 1 (-1 - n).toNat; omega⟩
      rw [decVal, readHeader_encHeader 1 (-1 - n).toNat rest (by norm_num) (by omega)]
      have hval : -1 - (((-1 - n).toNat : Int)) = n := by
        rw [Int.toNat_of_nonneg (by omega)]
        ring
      show some (Obj.int (-1 - (((-1 - n).toNat : Int))), rest) = some (Obj.int n, rest)
      rw [hval]
  | hbytes bs =>
    intro hwf f rest hf
    simp only [wfObj, decide_eq_true_eq] at hwf
    exact decVal_bytes f bs rest hwf hf
  | hstr s =>
    intro hwf f rest hf
    simp only [wfObj, decide_eq_true_eq] at hwf
    exact decVal_str f s rest hwf hf
  | harr xs hih =>
    intro hwf f rest hf
    simp only [wfObj, Bool.and_eq_true, decide_eq_true_eq] at hwf
    simp only [encObj, List.append_assoc] at hf ⊢
    obtain ⟨f2, rfl⟩ : ∃ f2, f = f2 + 1 :=
      ⟨f - 1, by have := encHeader_length_pos 4 xs.length; simp [List.length_append] at hf; omega⟩
    rw [decVal, readHeader_encHeader 4 xs.length _ (by norm_num) hwf.1]
    have hrec := decListAux_encList f2 xs rest
      (fun x hx => hih x hx (wfList_mem hwf.2 x hx))
      (by have := encHeader_length_pos 4 xs.length; simp [List.length_append] at hf; omega)
    simp only [List.length_append] at hrec
    simp [hrec]
  | hmap kvs hih =>
    intro hwf f rest hf
    simp only [wfObj, Bool.and_eq_true, decide_eq_true_eq] at hwf
    simp only [encObj, List.append_assoc] at hf ⊢
    obtain ⟨f2, rfl⟩ : ∃ f2, f = f2 + 1 :=
      ⟨f - 1, by have := encHeader_length_pos 5 kvs.length; simp [List.length_append] at hf; omega⟩
    rw [decVal, readHeader_encHeader 5 kvs.length _ (by norm_num) hwf.1.1]
    have hrec := decPairsAux_encPairs f2 kvs [] rest
      (fun p hp => (wfPairs_mem hwf.2 p hp).1)
      (fun p hp => hih p hp (wfPairs_mem hwf.2 p hp).2)
      (by simpa using hwf.1.2)
      (by have := encHeader_length_pos 5 kvs.length; simp [List.length_append] at hf; omega)
    simp only [List.nil_append] at hrec
    simp [hrec]
  | hlink c =>
    intro hwf f rest hf
    obtain ⟨cb⟩ := c
    simp only [wfObj, Bool.and_eq_true, decide_eq_true_eq] at hwf
    have hplen : (castCidToBytes ⟨cb⟩).length < 2 ^ 64 := by
      simp only [castCidToBytes]
      simp only [List.length_cons]
      have := hwf.2
      simpa using this
    have hbenc : encHeader 2 (castCidToBytes ⟨cb⟩).length ++ castCidToBytes ⟨cb⟩ =
        encObj (.bytes (castCidToBytes ⟨cb⟩)) := by simp [encObj]
    simp only [encObj, List.append_assoc] at hf ⊢
    obtain ⟨f2, rfl⟩ : ∃ f2, f = f2 + 1 :=
      ⟨f - 1, by have := encHeader_length_pos 6 42; simp [List.length_append] at hf; omega⟩
    rw [decVal, readHeader_encHeader 6 42 _ (by norm_num) (by norm_num)]
    rw [← List.append_assoc (encHeader 2 (castCidToBytes ⟨cb⟩).length), hbenc]
    have hbdec := decVal_bytes f2 (castCidToBytes ⟨cb⟩) rest hplen
      (by
        simp only [encObj, castCidToBytes] at hf ⊢
        have := encHeader_length_pos 6 42
        simp only [List.length_append] at hf ⊢
        omega)
    show (match decVal f2 (encObj (Obj.bytes (castCidToBytes ⟨cb⟩)) ++ rest) with
      | some (Obj.bytes payload, r) =>
        (match castBytesToCid payload with
          | Except.ok c => some (Obj.link c, r)
          | Except.error _ => none)
      | _ => none) = some (Obj.link (⟨cb⟩ : Cid), rest)
    rw [hbdec]
    simp [castBytesToCid, castCid, castCidToBytes, hwf.1]


theorem canonObj_eq_self : ∀ (v : Obj), wfObj v = true → canonObj v = v := by
  intro v
  induction v with
  | hnull => intro _; rfl
  | hbool b => intro _; rfl
  | hint n => intro _; rfl
  | hbytes bs => intro _; rfl
  | hstr s => intro _; rfl
  | harr xs hih =>
    intro hwf
    simp only [wfObj, Bool.and_eq_true, decide_eq_true_eq] at hwf
    simp only [canonObj]
    have hc : ∀ ys : List Obj, (∀ x ∈ ys, wfObj x = true → canonObj x = x) →
        (∀ x ∈ ys, wfObj x = true) → canonList ys = ys := by
      intro ys
      induction ys with
      | nil => intro _ _; rfl
      | cons z zs ihz =>
        intro hA hB
        simp only [canonList]
        rw [hA z (by simp) (hB z (by simp)),
          ihz (fun x hx => hA x (by simp [hx])) (fun x hx => hB x (by simp [hx]))]
    rw [hc xs hih (wfList_mem hwf.2)]
  | hmap kvs hih =>
    intro hwf
    simp only [wfObj, Bool.and_eq_true, decide_eq_true_eq] at hwf
    simp only [canonObj]
    have hc : ∀ ps : List (List Nat × Obj), (∀ p ∈ ps, wfObj p.2 = true → canonObj p.2 = p.2) →
        (∀ p ∈ ps, wfObj p.2 = true) → canonPairs ps = ps := by
      intro ps
      induction ps with
      | nil => intro _ _; rfl
      | cons q qs ihq =>
        intro hA hB
        rcases q with ⟨k, v⟩
        simp only [canonPairs]
        rw [show canonObj v = v from hA (k, v) (by simp) (hB (k, v) (by simp)),
          ihq (fun p hp => hA p (by simp [hp])) (fun p hp => hB p (by simp [hp]))]
    rw [hc kvs hih (fun p hp => (wfPairs_mem hwf.2 p hp).2)]
    rw [sortPairs_of_sorted kvs hwf.1.2]
  | hlink c => intro _; rfl


theorem decodeCBOR_encObj (v : Obj) (h : wfObj v = true) : decodeCBOR (encObj v) = some v := by
  unfold decodeCBOR
  have hd := decVal_encObj v h ((encObj v).length + 1) [] (by omega)
  rw [List.append_nil] at hd
  rw [hd]
  rfl


theorem decodeCBOR_wf {b : List Nat} {v : Obj} (h : decodeCBOR b = some v) :
    wfObj v = true := by
  unfold decodeCBOR at h
  match hd : decVal (b.length + 1) b with
  | none => rw [hd] at h; simp at h
  | some (v2, r) =>
    rw [hd] at h
    simp only [Option.map_some', Option.some.injEq] at h
    rw [← h]
    exact decVal_wf _ _ _ _ hd


theorem DumpObject_of_wf (v : Obj) (h : wfObj v = true) : DumpObject v = encObj v := by
  unfold DumpObject
  rw [canonObj_eq_self v h]


theorem decodeCBOR_DumpObject (v : Obj) (h : wfObj v = true) :
    decodeCBOR (DumpObject v) = some v := by
  rw [DumpObject_of_wf v h]
  exact decodeCBOR_encObj v h


/-! ### Claim theorems -/

theorem WrapObject_eq (digestFn : Nat → List Nat → List Nat) (m : Obj) (t : Nat) (l : Int)
    (h : wfObj m = true) :
    WrapObject digestFn m t l = some
      { obj := m, tree := compTree m, links := compLinks m, raw := DumpObject m,
        cid := NewCidV1 dagCborCodec
          (mhSum digestFn (DumpObject m) (if t = 2 ^ 64 - 1 then sha2_256Code else t) l) } := by
  unfold WrapObject decodeBlock
  dsimp only
  rw [decodeCBOR_DumpObject m h]


/-- C1: decoding is canonicalizing and idempotent: whenever `Decode` accepts
`b` producing node `nd`, and accepts `nd.RawData()` with the same hash type
and length producing `nd2`, then `nd2.RawData() = nd.RawData()` — even when
`b` itself is a non-canonical encoding. -/
theorem claim_C1_decode_canonical_idempotent
    (digestFn : Nat → List Nat → List Nat) (b : List Nat) (t : Nat) (l : Int)
    (nd nd2 : Node)
    (h1 : Decode digestFn b t l = some nd)
    (h2 : Decode digestFn nd.raw t l = some nd2) :
    nd2.raw = nd.raw := by
  unfold Decode at h1 h2
  match hd : decodeCBOR b with
  | none => rw [hd] at h1; exact absurd h1 (by simp)
  | some m =>
    rw [hd] at h1
    dsimp only at h1
    have hwf := decodeCBOR_wf hd
    rw [WrapObject_eq digestFn m t l hwf] at h1
    simp only [Option.some.injEq] at h1
    subst h1
    dsimp only at h2
    rw [decodeCBOR_DumpObject m hwf] at h2
    dsimp only at h2
    rw [WrapObject_eq digestFn m t l hwf] at h2
    simp only [Option.some.injEq] at h2
    subst h2
    rfl


theorem claim_C1_witness :
    Decode dfW [162, 97, 98, 1, 97, 97, 2] (2 ^ 64 - 1) (-1) = some ndW ∧
    Decode dfW ndW.raw (2 ^ 64 - 1) (-1) = some ndW ∧
    ndW.raw = ndW.raw :=
  ⟨rfl, rfl,
    claim_C1_decode_canonical_idempotent dfW [162, 97, 98, 1, 97, 97, 2]
      (2 ^ 64 - 1) (-1) ndW ndW (by rfl) (by rfl)⟩


/-- C5: `DecodeBlock` preserves the block verbatim: when the block's bytes
decode, the node's raw bytes are exactly the block's bytes and the node's
identifier is exactly the block's supplied identifier, with no re-encoding
and no verification of the identifier against the bytes. -/
theorem claim_C5_decodeBlock_trusts_block (blk : Block) (nd : Node)
    (h : DecodeBlock blk = some nd) : nd.raw = blk.data ∧ nd.cid = blk.cid := by
  unfold DecodeBlock decodeBlock at h
  match hd : decodeCBOR blk.data with
  | none => rw [hd] at h; exact absurd h (by simp)
  | some m =>
    rw [hd] at h
    simp only [Option.some.injEq] at h
    subst h
    exact ⟨rfl, rfl⟩


theorem claim_C5_witness :
    DecodeBlock blkW = some ndW5 ∧ ndW5.raw = blkW.data ∧ ndW5.cid = blkW.cid :=
  ⟨rfl, claim_C5_decodeBlock_trusts_block blkW ndW5 rfl⟩


theorem cid_v1_fields (codec mhType : Nat) (tail : List Nat) :
    cidVersionOf ⟨uvarint 1 ++ (uvarint codec ++ (uvarint mhType ++ tail))⟩ = some 1 ∧
    cidCodecOf ⟨uvarint 1 ++ (uvarint codec ++ (uvarint mhType ++ tail))⟩ = some codec ∧
    cidMhCodeOf ⟨uvarint 1 ++ (uvarint codec ++ (uvarint mhType ++ tail))⟩ = some mhType := by
  unfold cidVersionOf cidCodecOf cidMhCodeOf
  simp [readUvarint_uvarint]


theorem NewCidV1_mhSum_fields (codec mhType : Nat) (digestFn : Nat → List Nat → List Nat)
    (data : List Nat) (mhLen : Int) :
    cidVersionOf (NewCidV1 codec (mhSum digestFn data mhType mhLen)) = some 1 ∧
    cidCodecOf (NewCidV1 codec (mhSum digestFn data mhType mhLen)) = some codec ∧
    cidMhCodeOf (NewCidV1 codec (mhSum digestFn data mhType mhLen)) = some mhType := by
  have h := cid_v1_fields codec mhType
    ((uvarint (if mhLen < 0 then digestFn mhType data else (digestFn mhType data).take mhLen.toNat).length) ++
      (if mhLen < 0 then digestFn mhType data else (digestFn mhType data).take mhLen.toNat))
  unfold NewCidV1 mhSum
  dsimp only
  simpa [List.append_assoc] using h


/-- C10: every node `WrapObject` produces (hence every node `Decode` and
`FromJSON` produce, both of which build through `WrapObject`) carries a
version-1 identifier with the DagCBOR codec, and the hash type
`math.MaxUint64` selects SHA2-256. -/
theorem claim_C10_wrapObject_cid_parameters
    (digestFn : Nat → List Nat → List Nat) (dec : List Nat → Option Cid)
    (m : Obj) (j : Json) (b : List Nat) (t : Nat) (l : Int) (nd : Node)
    (h : WrapObject digestFn m t l = some nd ∨ Decode digestFn b t l = some nd ∨
      FromJSON dec digestFn j t l = some nd) :
    cidVersionOf nd.cid = some 1 ∧ cidCodecOf nd.cid = some dagCborCodec ∧
    (t = 2 ^ 64 - 1 → cidMhCodeOf nd.cid = some sha2_256Code) := by
  have hwrap : ∀ (m2 : Obj), WrapObject digestFn m2 t l = some nd →
      cidVersionOf nd.cid = some 1 ∧ cidCodecOf nd.cid = some dagCborCodec ∧
      (t = 2 ^ 64 - 1 → cidMhCodeOf nd.cid = some sha2_256Code) := by
    intro m2 hw
    unfold WrapObject decodeBlock at hw
    dsimp only at hw
    match hd : decodeCBOR (DumpObject m2) with
    | none => rw [hd] at hw; exact absurd hw (by simp)
    | some m3 =>
      rw [hd] at hw
      simp only [Option.some.injEq] at hw
      subst hw
      dsimp only
      have hfields := NewCidV1_mhSum_fields dagCborCodec
        (if t = 2 ^ 64 - 1 then sha2_256Code else t) digestFn (DumpObject m2) l
      refine ⟨hfields.1, hfields.2.1, fun ht => ?_⟩
      rw [if_pos ht] at hfields ⊢
      exact hfields.2.2
  rcases h with h | h | h
  · exact hwrap m h
  · unfold Decode at h
    match hd : decodeCBOR b with
    | none => rw [hd] at h; exact absurd h (by simp)
    | some m2 =>
      rw [hd] at h
      dsimp only at h
      exact hwrap m2 h
  · unfold FromJSON at h
    match hc : convertToCborIshObj dec j with
    | .error e => rw [hc] at h; exact absurd h (by simp)
    | .ok ci =>
      rw [hc] at h
      dsimp only at h
      exact hwrap (cborIshToObj ci) h


theorem claim_C10_witness :
    cidVersionOf ndW10.cid = some 1 ∧ cidCodecOf ndW10.cid = some dagCborCodec ∧
    (2 ^ 64 - 1 = 2 ^ 64 - 1 → cidMhCodeOf ndW10.cid = some sha2_256Code) :=
  claim_C10_wrapObject_cid_parameters dfW (fun _ => none) Obj.null Json.null []
    (2 ^ 64 - 1) (-1) ndW10 (Or.inl (by rfl))


/-- C8: the Reference wire payload of an identifier is a single `0x00` byte
followed by the raw identifier bytes; decoding that payload returns exactly
the identifier; decoding fails on an empty payload and on any payload whose
first byte is not `0x00`. -/
theorem claim_C8_reference_wire_encoding :
    (∀ c : Cid, validCidBytes c.bytes = true →
      castCidToBytes c = 0 :: c.bytes ∧ castBytesToCid (castCidToBytes c) = .ok c) ∧
    (∃ e, castBytesToCid [] = .error e) ∧
    (∀ b bs, b ≠ 0 → ∃ e, castBytesToCid (b :: bs) = .error e) := by
  refine ⟨fun c h => ⟨rfl, castBytesToCid_castCidToBytes c h⟩,
    ⟨"link value was empty", rfl⟩, fun b bs hb => ?_⟩
  exact ⟨"invalid multibase on IPLD link", by simp [castBytesToCid, hb]⟩


theorem claim_C8_witness :
    (castCidToBytes ⟨[1, 113, 18, 0]⟩ = 0 :: [1, 113, 18, 0] ∧
      castBytesToCid (castCidToBytes ⟨[1, 113, 18, 0]⟩) = .ok ⟨[1, 113, 18, 0]⟩) ∧
    (∃ e, castBytesToCid [] = .error e) ∧
    (∃ e, castBytesToCid (7 :: [1, 2]) = .error e) :=
  ⟨claim_C8_reference_wire_encoding.1 ⟨[1, 113, 18, 0]⟩ (by decide),
    claim_C8_reference_wire_encoding.2.1,
    claim_C8_reference_wire_encoding.2.2 7 [1, 2] (by decide)⟩


/-- C4 counterexample: for the node of `{"ab": 1}`, `Tree("a", -1)` returns
`{"b"}`, but no recorded path lies under the path `"a"` (the only recorded
path is `"ab"`, which merely shares characters with `"a"`), so the set the
claim prescribes is empty. -/
theorem claim_C4_counterexample :
    ndAB.Tree [97] (-1) = [[98]] ∧ treeUnderSpec ndAB.tree [97] (-1) = [] ∧
    ([[98]] : List (List Nat)) ≠ [] := by
  refine ⟨by rfl, by rfl, by decide⟩


/-- A filterMap whose function keeps every member of the list unchanged is the
identity on that list. -/
theorem filterMap_id_of_some {α : Type} (f : α → Option α) :
    ∀ l : List α, (∀ t ∈ l, f t = some t) → l.filterMap f = l := by
  intro l
  induction l with
  | nil => intro _; rfl
  | cons t ts ih =>
    intro h
    rw [List.filterMap_cons, h t (by simp), ih (fun u hu => h u (by simp [hu]))]


theorem trimLeftSlash_of_head {t : List Nat} (h : t.head? ≠ some 47) :
    trimLeftSlash t = t := by
  match t with
  | [] => rfl
  | b :: r =>
    simp only [List.head?] at h
    have hb : (b == 47) = false := beq_eq_false_iff_ne.mpr (fun hc => h (by rw [hc]))
    simp [trimLeftSlash, List.dropWhile, hb]


/-- C4 (amended): when the path is empty and the depth is `-1`, `Tree` returns
the node's recorded path list verbatim, with no filtering, prefix-stripping,
slash-trimming or empty-suffix dropping; for every other `(p, d)`, `Tree(p, d)`
returns exactly the recorded paths that begin with the character sequence `p`
(even mid-segment), with `p`'s characters dropped and leading slashes trimmed,
the empty suffix discarded; `d < 0` keeps all of them and `d ≥ 0` only the
suffixes with at most `d` slash-separated segments (none for `d = 0`).  When
every recorded path is non-empty and does not start with a slash, the verbatim
fast path agrees with that rule, so the rule then describes `Tree` at every
`(p, d)`.  In particular for `{"a": {"b": 1, "c": 2}}`, `Tree("", -1)` yields
exactly `{"a", "a/b", "a/c"}`, `Tree("", 0)` the empty set, and `Tree("a", -1)`
exactly `{"b", "c"}`; for the node of `{"": 1}` the fast path returns the
recorded empty path verbatim while the general rule would drop it. -/
theorem claim_C4_amended (n : Node) (path : List Nat) (depth : Int) :
    n.Tree path depth =
      (if path = [] ∧ depth = -1 then n.tree else treeRawSpec n.tree path depth) ∧
    ((∀ t ∈ n.tree, t ≠ [] ∧ t.head? ≠ some 47) →
      n.Tree path depth = treeRawSpec n.tree path depth) ∧
    ndTreeEx.Tree [] (-1) = [[97], [97, 47, 98], [97, 47, 99]] ∧
    ndTreeEx.Tree [] 0 = [] ∧
    ndTreeEx.Tree [97] (-1) = [[98], [99]] ∧
    ndEmptyKey.Tree [] (-1) = [[]] ∧
    treeRawSpec ndEmptyKey.tree [] (-1) = [] := by
  refine ⟨rfl, ?_, by rfl, by rfl, by rfl, by rfl, by rfl⟩
  intro hwf
  unfold Node.Tree treeRawSpec
  by_cases hsp : path = [] ∧ depth = -1
  · rw [if_pos hsp]
    obtain ⟨hp, hd⟩ := hsp
    subst hp
    subst hd
    symm
    apply filterMap_id_of_some
    intro t ht
    have hwt := hwf t ht
    have htrim : trimLeftSlash t = t := trimLeftSlash_of_head hwt.2
    simp [List.isPrefixOf, List.drop_zero, htrim, hwt.1]
  · rw [if_neg hsp]


theorem claim_C4_witness :
    ndTreeEx.Tree [97] 1 = treeRawSpec ndTreeEx.tree [97] 1 ∧
    ndTreeEx.Tree [] (-1) = [[97], [97, 47, 98], [97, 47, 99]] ∧
    ndTreeEx.Tree [] 0 = [] ∧
    ndTreeEx.Tree [97] (-1) = [[98], [99]] ∧
    ndEmptyKey.Tree [] (-1) = [[]] := by
  have h := claim_C4_amended ndTreeEx [97] 1
  exact ⟨h.2.1 (by decide), h.2.2.1, h.2.2.2.1, h.2.2.2.2.1, h.2.2.2.2.2.1⟩


/-! C6: Resolve -/

theorem resolveObj_stops (q : List (List Nat)) : ∀ (obj : Obj) (rest : List (List Nat)) (c : Cid),
    descend obj q = some (.link c) →
    (∀ i, i < q.length → isLinkO (descend obj (q.take i)) = false) →
    resolveObj obj (q ++ rest) = .ok (.link c, rest) := by
  induction q with
  | nil =>
    intro obj rest c hq _
    simp only [descend, Option.some.injEq] at hq
    subst hq
    cases rest with
    | nil => rfl
    | cons s r => rfl
  | cons seg q ih =>
    intro obj rest c hq hmid
    have hobj := hmid 0 (by simp)
    simp only [List.take_zero, descend, isLinkO] at hobj
    cases obj with
    | map kvs =>
      simp only [descend] at hq
      match hl : kvs.lookup seg with
      | none => rw [hl] at hq; simp at hq
      | some next =>
        rw [hl] at hq
        simp only at hq
        have hmid2 : ∀ i, i < q.length → isLinkO (descend next (q.take i)) = false := by
          intro i hi
          have := hmid (i + 1) (by simp; omega)
          simpa [descend, hl] using this
        simp only [List.cons_append, resolveObj, hl]
        exact ih next rest c hq hmid2
    | arr xs =>
      simp only [descend] at hq
      match ha : atoi seg with
      | none => rw [ha] at hq; simp at hq
      | some i =>
        rw [ha] at hq
        simp only at hq
        split at hq
        · rename_i hrange
          have hmid2 : ∀ j, j < q.length →
              isLinkO (descend (xs.get ⟨i.toNat, hrange.2⟩) (q.take j)) = false := by
            intro j hj
            have := hmid (j + 1) (by simp; omega)
            simp only [List.take_succ_cons, descend, ha] at this
            rw [dif_pos hrange] at this
            exact this
          simp only [List.cons_append, resolveObj, ha]
          rw [dif_pos hrange]
          exact ih _ rest c hq hmid2
        · simp at hq
    | link c2 => simp at hobj
    | null => simp [descend] at hq
    | bool b => simp [descend] at hq
    | int n0 => simp [descend] at hq
    | bytes bs0 => simp [descend] at hq
    | str s0 => simp [descend] at hq


/-- C6: walking a path through a node's object tree, reaching a Reference
after consuming the segments `q` — with no Reference encountered strictly
earlier — makes `Resolve` stop immediately and return that Reference
together with exactly the unconsumed segments; when the path is exhausted
(`rest = []`) the Reference is returned with zero remaining segments. -/
theorem claim_C6_resolve_stops_at_reference (n : Node) (q rest : List (List Nat)) (c : Cid)
    (hq : descend n.obj q = some (.link c))
    (hmid : ∀ i, i < q.length → isLinkO (descend n.obj (q.take i)) = false) :
    n.Resolve (q ++ rest) = .ok (.link c, rest) :=
  resolveObj_stops q n.obj rest c hq hmid


theorem claim_C6_witness :
    ndW6.Resolve ([[97], [98]] ++ [[120], [121]]) = .ok (.link cW, [[120], [121]]) ∧
    ndW6.Resolve ([[97], [98]] ++ []) = .ok (.link cW, []) :=
  ⟨claim_C6_resolve_stops_at_reference ndW6 [[97], [98]] [[120], [121]] cW (by rfl) (by decide),
   claim_C6_resolve_stops_at_reference ndW6 [[97], [98]] [] cW (by rfl) (by decide)⟩


/-! C9: JSON to object tree -/

/-- C9: converting JSON, an object with exactly one key `"/"` and a string
value parses as a Reference (failing when the identifier string does not
decode); an object with extra keys alongside `"/"` is kept as an ordinary
object, not a link; empty objects and empty arrays convert to themselves,
never to a link. -/
theorem claim_C9_json_link_convention (dec : List Nat → Option Cid) (s : List Nat) (c : Cid)
    (kvs : List (List Nat × Json)) :
    (dec s = some c →
      convertToCborIshObj dec (.obj [([47], .str s)]) = .ok (.link c)) ∧
    (dec s = none →
      ∃ e, convertToCborIshObj dec (.obj [([47], .str s)]) = .error e) ∧
    (2 ≤ kvs.length → (kvs.lookup [47]).isSome →
      convertToCborIshObj dec (.obj kvs) = .ok (.raw (.obj kvs))) ∧
    convertToCborIshObj dec (.obj []) = .ok (.raw (.obj [])) ∧
    convertToCborIshObj dec (.arr []) = .ok (.raw (.arr [])) := by
  refine ⟨?_, ?_, ?_, rfl, rfl⟩
  · intro hdec
    simp [convertToCborIshObj, hdec]
  · intro hdec
    exact ⟨"failed to parse link identifier", by simp [convertToCborIshObj, hdec]⟩
  · intro hlen _
    unfold convertToCborIshObj
    rw [if_neg (by omega), if_neg (by
      rintro ⟨-, h1⟩
      omega)]


theorem claim_C9_witness :
    convertToCborIshObj decW (.obj [([47], .str [120])]) = .ok (.link cW) ∧
    (∃ e, convertToCborIshObj decW (.obj [([47], .str [121])]) = .error e) ∧
    convertToCborIshObj decW (.obj [([47], .str [120]), ([97], .null)]) =
      .ok (.raw (.obj [([47], .str [120]), ([97], .null)])) ∧
    convertToCborIshObj decW (.obj []) = .ok (.raw (.obj [])) ∧
    convertToCborIshObj decW (.arr []) = .ok (.raw (.arr [])) :=
  ⟨(claim_C9_json_link_convention decW [120] cW []).1 (by rfl),
   (claim_C9_json_link_convention decW [121] cW []).2.1 (by rfl),
   (claim_C9_json_link_convention decW [120] cW [([47], .str [120]), ([97], .null)]).2.2.1
      (by decide) (by rfl),
   (claim_C9_json_link_convention decW [120] cW []).2.2.2.1,
   (claim_C9_json_link_convention decW [120] cW []).2.2.2.2⟩


/-- C2 (code bug, evaluated at the failing input): the identifier computed
from `vBad`'s own marshalled bytes differs from its claimed identifier, yet
`Put` returns it with no error — the mismatch check of store.go line 142 can
never fire because the `expCid := c.Cid()` on line 107 shadows the `expCid`
of line 105 (compare `PutMany`, which assigns with `=` and does fail). -/
theorem claim_C2_put_mismatch_check_dead :
    (Put df0 storeEmpty vBad).1 = .ok ⟨[1, 113, 18, 1, 0]⟩ ∧
    (⟨[1, 113, 18, 1, 0]⟩ : Cid) ≠ cidClaim ∧ vBad.claimed = some cidClaim :=
  ⟨rfl, by decide, rfl⟩


theorem getManyLoop_spec :
    ∀ (blks : List (Cid × List Nat)) (i0 : Nat) (outs : List (Option Obj)),
      i0 + blks.length ≤ outs.length →
      ((getManyLoop i0 blks outs).1.length = blks.length ∧
        (getManyLoop i0 blks outs).2.length = outs.length) ∧
      (∀ j c bytes, blks.get? j = some (c, bytes) →
        (getManyLoop i0 blks outs).1.get? j = some ⟨c, i0 + j, cursorErr bytes⟩ ∧
        (getManyLoop i0 blks outs).2.get? (i0 + j) =
          (match decodeCBOR bytes with
          | some m => some (some m)
          | none => outs.get? (i0 + j))) ∧
      (∀ k, (k < i0 ∨ i0 + blks.length ≤ k) →
        (getManyLoop i0 blks outs).2.get? k = outs.get? k) := by
  intro blks
  induction blks with
  | nil =>
    intro i0 outs _
    exact ⟨⟨rfl, rfl⟩, fun j c bytes hj => absurd hj (by simp), fun k _ => rfl⟩
  | cons hd tl ih =>
    intro i0 outs hb
    rcases hd with ⟨c0, bytes0⟩
    simp only [List.length_cons] at hb
    cases hdec : decodeCBOR bytes0 with
    | some m =>
      have hrec := ih (i0 + 1) (outs.set i0 (some m)) (by simp; omega)
      simp only [getManyLoop, hdec]
      obtain ⟨⟨hlen1, hlen2⟩, hidx, huntouched⟩ := hrec
      refine ⟨⟨by simp [hlen1], by simp [hlen2, List.length_set]⟩, ?_, ?_⟩
      · intro j c bytes hj
        match j, hj with
        | 0, hj =>
          simp only [List.get?_cons_zero, Option.some.injEq] at hj
          obtain ⟨h1, h2⟩ := Prod.mk.injEq .. ▸ hj
          refine ⟨by simp [← h1, ← h2, cursorErr, hdec], ?_⟩
          rw [← h2, hdec]
          have hut := huntouched i0 (Or.inl (by omega))
          simp only [Nat.add_zero]
          rw [hut, List.get?_set_eq_of_lt (some m) (by omega)]
        | Nat.succ j, hj =>
          simp only [List.get?_cons_succ] at hj
          obtain ⟨hc1, hc2⟩ := hidx j c bytes hj
          constructor
          · simp only [List.get?_cons_succ]
            rw [hc1]
            have : i0 + 1 + j = i0 + (j + 1) := by omega
            rw [this]
          · have : i0 + 1 + j = i0 + (j + 1) := by omega
            rw [← this, hc2]
            cases hdec2 : decodeCBOR bytes with
            | some m2 => rfl
            | none =>
              rw [List.get?_set_ne (some m) outs (by omega)]
      · intro k hk
        simp only [List.length_cons] at hk
        have hut := huntouched k (by omega)
        rw [hut, List.get?_set_ne (some m) outs (by omega)]
    | none =>
      have hrec := ih (i0 + 1) outs (by omega)
      simp only [getManyLoop, hdec]
      obtain ⟨⟨hlen1, hlen2⟩, hidx, huntouched⟩ := hrec
      refine ⟨⟨by simp [hlen1], by simp [hlen2]⟩, ?_, ?_⟩
      · intro j c bytes hj
        match j, hj with
        | 0, hj =>
          simp only [List.get?_cons_zero, Option.some.injEq] at hj
          obtain ⟨h1, h2⟩ := Prod.mk.injEq .. ▸ hj
          refine ⟨by simp [← h1, ← h2, cursorErr, hdec], ?_⟩
          rw [← h2, hdec]
          simp only [Nat.add_zero]
          exact huntouched i0 (Or.inl (by omega))
        | Nat.succ j, hj =>
          simp only [List.get?_cons_succ] at hj
          obtain ⟨hc1, hc2⟩ := hidx j c bytes hj
          constructor
          · simp only [List.get?_cons_succ]
            rw [hc1]
            have : i0 + 1 + j = i0 + (j + 1) := by omega
            rw [this]
          · have : i0 + 1 + j = i0 + (j + 1) := by omega
            rw [← this, hc2]
      · intro k hk
        simp only [List.length_cons] at hk
        exact huntouched k (by omega)


/-- C3 (amended): each emitted cursor record carries the position of its
block within the list of found blocks (the subset the backing store
returned, in request order) — not its position in the original identifier
list — and the decode of that block writes into the output slot at that same
found-list position; output slots beyond the found range are untouched, and
the missing list is exactly the requested identifiers the store does not
hold.  The two positions coincide only when every earlier requested block is
found. -/
theorem claim_C3_amended (s : MockBlocks) (cs : List Cid) (outs : List (Option Obj))
    (hlen : cs.length = outs.length)
    (cursors : List Cursor) (missing : List Cid) (outs2 : List (Option Obj))
    (hres : GetMany s cs outs = .ok (cursors, missing, outs2)) :
    missing = cs.filter (fun c => (s.get c).isNone) ∧
    cursors.length = (backingGetMany s cs).1.length ∧
    (∀ j c bytes, (backingGetMany s cs).1.get? j = some (c, bytes) →
      cursors.get? j = some ⟨c, j, cursorErr bytes⟩ ∧
      outs2.get? j = (match decodeCBOR bytes with
        | some m => some (some m)
        | none => outs.get? j)) ∧
    (∀ k, (backingGetMany s cs).1.length ≤ k → outs2.get? k = outs.get? k) := by
  unfold GetMany at hres
  rw [if_neg (by omega)] at hres
  dsimp only at hres
  simp only [Except.ok.injEq, Prod.mk.injEq] at hres
  obtain ⟨hcur, hmiss, houts⟩ := hres
  have hfound : (backingGetMany s cs).1.length ≤ outs.length := by
    have h1 : (backingGetMany s cs).1.length ≤ cs.length := by
      unfold backingGetMany
      exact List.length_filterMap_le _ _
    omega
  have hspec := getManyLoop_spec (backingGetMany s cs).1 0 outs (by omega)
  refine ⟨hmiss.symm, ?_, ?_, ?_⟩
  · rw [← hcur]
    exact hspec.1.1
  · intro j c bytes hj
    have h := hspec.2.1 j c bytes hj
    rw [← hcur, ← houts]
    simpa using h
  · intro k hk
    rw [← houts]
    exact hspec.2.2 k (by omega)


/-- C3 counterexample: requesting `[cA, cB]` from a store holding only `cB`,
the single emitted cursor carries index 0 — the position of `cB`'s block in
the found-block list — and the decode lands in output slot 0, although
`cB`'s index in the original identifier list is 1; so it is false that every
cursor carries the index of its block in the original list `cs`. -/
theorem claim_C3_counterexample :
    GetMany stC3 [cA, cB] [none, none] =
      .ok ([⟨cB, 0, none⟩], [cA], [some .null, none]) ∧
    ¬ (∀ cur ∈ [(⟨cB, 0, none⟩ : Cursor)], [cA, cB].get? cur.index = some cur.cid) :=
  ⟨rfl, by decide⟩


theorem claim_C3_witness :
    [cA] = [cA, cB].filter (fun c => (stC3.get c).isNone) ∧
    ([⟨cB, 0, none⟩] : List Cursor).length = (backingGetMany stC3 [cA, cB]).1.length :=
  ⟨(claim_C3_amended stC3 [cA, cB] [none, none] rfl [⟨cB, 0, none⟩] [cA]
      [some .null, none] rfl).1,
   (claim_C3_amended stC3 [cA, cB] [none, none] rfl [⟨cB, 0, none⟩] [cA]
      [some .null, none] rfl).2.1⟩

